import Mathlib

/-!
Verification of the Qeltrix (`.qltx`) container engine against its
natural-language specification.

The repository ships only the test drivers (`test-3-negative.py`,
`test-4.py`) and packaging metadata; the engine itself
(`qeltrix-3.py` / `qeltrix-4.py`) is not part of the source tree.  The
definitions below therefore model the engine from the specification
(`spec.md`): the container layout (fixed 10-byte header, 4-byte
big-endian metadata length, canonical JSON metadata with
lexicographically sorted keys, concatenated ciphertext blocks), the
two content-derived key-derivation modes, the deterministic per-block
nonces, the authenticated per-block cipher, the optional asymmetric
key envelope and the optional metadata signature, and the
unpack / seek readers.  Cryptographic primitives (hash, AEAD,
asymmetric wrap, signature) are modelled by executable deterministic
functions with the algebraic properties the specification assumes of
them; byte strings are `List Nat` with values below 256.
-/

namespace Qeltrix

/-! ### Byte classes and numeric encodings -/

/-- ASCII decimal digit test. -/
def isDigitB (c : Nat) : Bool := 48 ≤ c && c ≤ 57

/-- Lower-case hexadecimal digit test (`0-9a-f`). -/
def isHexB (c : Nat) : Bool := (48 ≤ c && c ≤ 57) || (97 ≤ c && c ≤ 102)

theorem isDigitB_eq_true {c : Nat} : isDigitB c = true ↔ 48 ≤ c ∧ c ≤ 57 := by
  simp [isDigitB]

theorem isHexB_eq_true {c : Nat} : isHexB c = true ↔ (48 ≤ c ∧ c ≤ 57) ∨ (97 ≤ c ∧ c ≤ 102) := by
  simp [isHexB]

theorem isHexB_of_isDigitB {c : Nat} (h : isDigitB c = true) : isHexB c = true := by
  rw [isDigitB_eq_true] at h; rw [isHexB_eq_true]; exact Or.inl h

theorem lt256_of_isHexB {c : Nat} (h : isHexB c = true) : c < 256 := by
  rw [isHexB_eq_true] at h; omega

theorem lt256_of_isDigitB {c : Nat} (h : isDigitB c = true) : c < 256 :=
  lt256_of_isHexB (isHexB_of_isDigitB h)

/-- Decimal digit accumulator: fold ASCII digits into a number, Horner style. -/
def vGo (a : Nat) (ds : List Nat) : Nat := ds.foldl (fun x c => x * 10 + (c - 48)) a

theorem vGo_append (a : Nat) (xs ys : List Nat) :
    vGo a (xs ++ ys) = vGo (vGo a xs) ys := by
  simp [vGo, List.foldl_append]

/-- Fueled big-endian decimal rendering of a natural number (ASCII digits). -/
def natBGo : Nat → Nat → List Nat → List Nat
  | 0, n, acc => (48 + n % 10) :: acc
  | f + 1, n, acc => if n < 10 then (48 + n) :: acc else natBGo f (n / 10) ((48 + n % 10) :: acc)

/-- ASCII decimal rendering of a natural number. -/
def natB (n : Nat) : List Nat := natBGo n n []

theorem natBGo_spec (n : Nat) : ∀ f acc, n ≤ f →
    ∃ ds, natBGo f n acc = ds ++ acc ∧ ds ≠ [] ∧ (∀ c ∈ ds, isDigitB c = true) ∧
      ∀ a, vGo a ds = a * 10 ^ ds.length + n := by
  induction n using Nat.strong_induction_on with
  | _ n ih =>
    intro f acc hf
    match f with
    | 0 =>
      have hn : n = 0 := Nat.le_zero.mp hf
      subst hn
      refine ⟨[48], rfl, by simp, ?_, ?_⟩
      · intro c hc; simp at hc; subst hc; decide
      · intro a; simp [vGo]
    | f + 1 =>
      by_cases h10 : n < 10
      · refine ⟨[48 + n], by simp [natBGo, h10], by simp, ?_, ?_⟩
        · intro c hc; simp at hc; subst hc; rw [isDigitB_eq_true]; omega
        · intro a; simp [vGo]
      · have hdiv : n / 10 < n := Nat.div_lt_self (by omega) (by omega)
        obtain ⟨ds, hds, hne, hdig, hval⟩ :=
          ih (n / 10) hdiv f ((48 + n % 10) :: acc) (by omega)
        refine ⟨ds ++ [48 + n % 10], ?_, by simp [hne], ?_, ?_⟩
        · simp [natBGo, h10, hds]
        · intro c hc
          rcases List.mem_append.mp hc with h | h
          · exact hdig c h
          · simp at h; subst h; rw [isDigitB_eq_true]; omega
        · intro a
          rw [vGo_append, hval a]
          have hsub : 48 + n % 10 - 48 = n % 10 := by omega
          have hn10 : n / 10 * 10 + n % 10 = n := by omega
          show vGo (a * 10 ^ ds.length + n / 10) [48 + n % 10]
              = a * 10 ^ (ds ++ [48 + n % 10]).length + n
          rw [vGo, List.foldl_cons, List.foldl_nil, hsub, List.length_append,
            List.length_cons, List.length_nil, Nat.zero_add, pow_succ]
          calc (a * 10 ^ ds.length + n / 10) * 10 + n % 10
              = a * (10 ^ ds.length * 10) + (n / 10 * 10 + n % 10) := by ring
            _ = a * (10 ^ ds.length * 10) + n := by rw [hn10]

theorem natB_spec (n : Nat) :
    natB n ≠ [] ∧ (∀ c ∈ natB n, isDigitB c = true) ∧ ∀ a, vGo a (natB n) = a * 10 ^ (natB n).length + n := by
  obtain ⟨ds, hds, hne, hdig, hval⟩ := natBGo_spec n n [] (Nat.le_refl n)
  rw [natB, hds, List.append_nil]
  exact ⟨hne, hdig, hval⟩

theorem vGo_natB (n : Nat) : vGo 0 (natB n) = n := by
  have h := (natB_spec n).2.2 0
  simpa using h

theorem natB_ne_nil (n : Nat) : natB n ≠ [] := (natB_spec n).1

theorem natB_digits (n : Nat) : ∀ c ∈ natB n, isDigitB c = true := (natB_spec n).2.1

theorem natB_inj {m n : Nat} (h : natB m = natB n) : m = n := by
  have hm := vGo_natB m
  have hn := vGo_natB n
  rw [h] at hm; omega

/-! ### Hexadecimal encodings -/

/-- One hex digit as an ASCII character (`0-9a-f`). -/
def hexDig (d : Nat) : Nat := if d < 10 then 48 + d else 87 + d

/-- Hex value of an ASCII hex character. -/
def hexv (c : Nat) : Nat := if c ≤ 57 then c - 48 else c - 87

theorem hexv_hexDig {d : Nat} (h : d < 16) : hexv (hexDig d) = d := by
  unfold hexDig hexv
  by_cases h10 : d < 10 <;> simp [h10] <;> omega

theorem isHexB_hexDig {d : Nat} (h : d < 16) : isHexB (hexDig d) = true := by
  unfold hexDig
  rw [isHexB_eq_true]
  by_cases h10 : d < 10 <;> simp [h10] <;> omega

/-- Fixed-width big-endian hexadecimal rendering. -/
def hexFix : Nat → Nat → List Nat
  | 0, _ => []
  | k + 1, n => hexFix k (n / 16) ++ [hexDig (n % 16)]

theorem length_hexFix (k n : Nat) : (hexFix k n).length = k := by
  induction k generalizing n with
  | zero => rfl
  | succ k ih => simp [hexFix, ih]

theorem hexFix_hex (k n : Nat) : ∀ c ∈ hexFix k n, isHexB c = true := by
  induction k generalizing n with
  | zero => simp [hexFix]
  | succ k ih =>
    intro c hc
    rcases List.mem_append.mp hc with h | h
    · exact ih (n / 16) c h
    · simp at h; subst h; exact isHexB_hexDig (Nat.mod_lt _ (by omega))

/-- Hex-string value accumulator. -/
def hGo (a : Nat) (ds : List Nat) : Nat := ds.foldl (fun x c => x * 16 + hexv c) a

/-- Value of a big-endian hex string. -/
def hVal (ds : List Nat) : Nat := hGo 0 ds

theorem hGo_append (a : Nat) (xs ys : List Nat) :
    hGo a (xs ++ ys) = hGo (hGo a xs) ys := by
  simp [hGo, List.foldl_append]

theorem hGo_hexFix (k n a : Nat) : hGo a (hexFix k n) = a * 16 ^ k + n % 16 ^ k := by
  induction k generalizing n a with
  | zero => simp [hexFix, hGo, Nat.mod_one]
  | succ k ih =>
    rw [hexFix, hGo_append, ih]
    show hGo (a * 16 ^ k + n / 16 % 16 ^ k) [hexDig (n % 16)] = a * 16 ^ (k + 1) + n % 16 ^ (k + 1)
    rw [hGo, List.foldl_cons, List.foldl_nil, hexv_hexDig (Nat.mod_lt _ (by omega))]
    have hsplit : n % (16 ^ k * 16) = n % (16 ^ k * 16) := rfl
    have h1 : 16 ^ (k + 1) = 16 ^ k * 16 := pow_succ 16 k
    rw [h1]
    have h2 : n % (16 ^ k * 16) = n / 16 % 16 ^ k * 16 + n % 16 := by
      conv_lhs => rw [mul_comm, Nat.mod_mul]
      omega
    rw [h2]; ring

theorem hVal_hexFix {k n : Nat} (h : n < 16 ^ k) : hVal (hexFix k n) = n := by
  rw [hVal, hGo_hexFix]
  simp [Nat.mod_eq_of_lt h]

/-- Hex encoding of a byte string: two ASCII hex characters per byte. -/
def hexB : List Nat → List Nat
  | [] => []
  | b :: bs => hexDig (b / 16) :: hexDig (b % 16) :: hexB bs

theorem hexB_append (a b : List Nat) : hexB (a ++ b) = hexB a ++ hexB b := by
  induction a with
  | nil => rfl
  | cons x xs ih => simp [hexB, ih]

theorem length_hexB (bs : List Nat) : (hexB bs).length = 2 * bs.length := by
  induction bs with
  | nil => rfl
  | cons b bs ih => simp [hexB, ih]; ring

theorem hexB_hex {bs : List Nat} (hb : ∀ x ∈ bs, x < 256) :
    ∀ c ∈ hexB bs, isHexB c = true := by
  induction bs with
  | nil => simp [hexB]
  | cons b tl ih =>
    intro c hc
    have hblt : b < 256 := hb b (by simp)
    rcases hc with _ | ⟨_, hc⟩
    · exact isHexB_hexDig (by omega)
    · rcases hc with _ | ⟨_, hc⟩
      · exact isHexB_hexDig (Nat.mod_lt _ (by omega))
      · exact ih (fun x hx => hb x (List.mem_cons_of_mem _ hx)) c hc

theorem hexDig_inj {a b : Nat} (ha : a < 16) (hb : b < 16) (h : hexDig a = hexDig b) : a = b := by
  unfold hexDig at h
  by_cases h1 : a < 10 <;> by_cases h2 : b < 10 <;> simp [h1, h2] at h <;> omega

theorem hexB_inj {a b : List Nat} (ha : ∀ x ∈ a, x < 256) (hb : ∀ x ∈ b, x < 256)
    (h : hexB a = hexB b) : a = b := by
  induction a generalizing b with
  | nil => cases b with
    | nil => rfl
    | cons y ys => simp [hexB] at h
  | cons x xs ih =>
    cases b with
    | nil => simp [hexB] at h
    | cons y ys =>
      simp only [hexB, List.cons.injEq] at h
      obtain ⟨h1, h2, h3⟩ := h
      have hx : x < 256 := ha x (by simp)
      have hy : y < 256 := hb y (by simp)
      have e1 : x / 16 = y / 16 := hexDig_inj (by omega) (by omega) h1
      have e2 : x % 16 = y % 16 := hexDig_inj (Nat.mod_lt _ (by omega)) (Nat.mod_lt _ (by omega)) h2
      have : x = y := by omega
      rw [this, ih (fun z hz => ha z (List.mem_cons_of_mem _ hz))
        (fun z hz => hb z (List.mem_cons_of_mem _ hz)) h3]

/-- Hex decoding: inverse of `hexB` on well-formed input. -/
def hexUn : List Nat → Option (List Nat)
  | [] => some []
  | c1 :: c2 :: r =>
    if isHexB c1 && isHexB c2 then (hexUn r).map (fun bs => (hexv c1 * 16 + hexv c2) :: bs)
    else none
  | [_] => none

theorem hexUn_hexB {bs : List Nat} (hb : ∀ x ∈ bs, x < 256) : hexUn (hexB bs) = some bs := by
  induction bs with
  | nil => rfl
  | cons b tl ih =>
    have hblt : b < 256 := hb b (by simp)
    have h1 : isHexB (hexDig (b / 16)) = true := isHexB_hexDig (by omega)
    have h2 : isHexB (hexDig (b % 16)) = true := isHexB_hexDig (Nat.mod_lt _ (by omega))
    have hv1 : hexv (hexDig (b / 16)) = b / 16 := hexv_hexDig (by omega)
    have hv2 : hexv (hexDig (b % 16)) = b % 16 := hexv_hexDig (Nat.mod_lt _ (by omega))
    simp only [hexB, hexUn, h1, h2, Bool.and_self, if_true,
      ih (fun z hz => hb z (List.mem_cons_of_mem _ hz)), Option.map_some', hv1, hv2]
    have : b / 16 * 16 + b % 16 = b := by omega
    rw [this]

/-! ### Model hash, big-endian length field -/

/-- Deterministic model of the cryptographic hash used for key derivation,
`mode_tag` and block authentication tags; bounded below `2 ^ 256`. -/
def toyHash (bs : List Nat) : Nat :=
  bs.foldl (fun a b => (a * 1031 + b + 7) % 2 ^ 256) 1

theorem foldl_lt_mod (l : List Nat) : ∀ a, a < 2 ^ 256 →
    l.foldl (fun a b => (a * 1031 + b + 7) % 2 ^ 256) a < 2 ^ 256 := by
  induction l with
  | nil => intro a ha; simpa using ha
  | cons x xs ih =>
    intro a _
    rw [List.foldl_cons]
    exact ih _ (Nat.mod_lt _ (by positivity))

theorem toyHash_lt (bs : List Nat) : toyHash bs < 2 ^ 256 :=
  foldl_lt_mod bs 1 (by norm_num)

/-- Big-endian 32-bit length field. -/
def be32 (n : Nat) : List Nat :=
  [n / 2 ^ 24 % 256, n / 2 ^ 16 % 256, n / 2 ^ 8 % 256, n % 256]

/-- Big-endian value of a byte string. -/
def beVal (bs : List Nat) : Nat := bs.foldl (fun a b => a * 256 + b) 0

theorem beVal_be32 {n : Nat} (h : n < 2 ^ 32) : beVal (be32 n) = n := by
  simp only [be32, beVal, List.foldl_cons, List.foldl_nil]
  omega

theorem length_be32 (n : Nat) : (be32 n).length = 4 := rfl

/-! ### Parsing primitives -/

theorem takeWhile_append_cons {p : Nat → Bool} (a : List Nat) (c : Nat) (r : List Nat)
    (ha : ∀ x ∈ a, p x = true) (hc : p c = false) :
    (a ++ c :: r).takeWhile p = a ∧ (a ++ c :: r).dropWhile p = c :: r := by
  induction a with
  | nil => simp [List.takeWhile_cons, List.dropWhile_cons, hc]
  | cons x xs ih =>
    have hx : p x = true := ha x (by simp)
    have := ih (fun z hz => ha z (List.mem_cons_of_mem _ hz))
    simp [List.takeWhile_cons, List.dropWhile_cons, hx, this]

/-- Greedy decimal-number parser: consumes a maximal nonempty digit run. -/
def parseNat (b : List Nat) : Option (Nat × List Nat) :=
  let ds := b.takeWhile isDigitB
  if ds.isEmpty then none else some (vGo 0 ds, b.dropWhile isDigitB)

theorem parseNat_rt (n c : Nat) (r : List Nat) (hc : isDigitB c = false) :
    parseNat (natB n ++ c :: r) = some (n, c :: r) := by
  obtain ⟨htake, hdrop⟩ := takeWhile_append_cons (natB n) c r (natB_digits n) hc
  simp only [parseNat, htake, hdrop, List.isEmpty_iff]
  rw [if_neg (natB_ne_nil n), vGo_natB]

/-- Literal matcher: consumes an exact byte sequence. -/
def lit : List Nat → List Nat → Option (List Nat)
  | [], b => some b
  | l :: ls, b =>
    match b with
    | [] => none
    | x :: xs => if x = l then lit ls xs else none

theorem lit_rt (l r : List Nat) : lit l (l ++ r) = some r := by
  induction l with
  | nil => rfl
  | cons x xs ih => simp [lit, ih]

/-- Greedy hex-string scanner (possibly empty). -/
def hexSpan (b : List Nat) : List Nat × List Nat :=
  (b.takeWhile isHexB, b.dropWhile isHexB)

theorem hexSpan_rt (d : List Nat) (r : List Nat) (hd : ∀ x ∈ d, isHexB x = true) :
    hexSpan (d ++ 34 :: r) = (d, 34 :: r) := by
  obtain ⟨htake, hdrop⟩ := takeWhile_append_cons d 34 r hd (by decide)
  simp [hexSpan, htake, hdrop]

/-! ### Block chunking -/

/-- Fueled block splitter: cuts a byte string into consecutive pieces of
at most `B` bytes (the final piece may be shorter). -/
def chunkGo (B : Nat) : Nat → List Nat → List (List Nat)
  | 0, _ => []
  | f + 1, P => if P.isEmpty then [] else P.take B :: chunkGo B f (P.drop B)

/-- Split a payload into blocks of size `B` (last block possibly short). -/
def chunk (B : Nat) (P : List Nat) : List (List Nat) := chunkGo B P.length P

theorem chunkGo_nil (B f : Nat) : chunkGo B f [] = [] := by
  cases f <;> simp [chunkGo]

theorem chunkGo_flatten (B : Nat) (hB : 0 < B) :
    ∀ f (P : List Nat), P.length ≤ f → (chunkGo B f P).flatten = P := by
  intro f
  induction f with
  | zero => intro P hP; rw [List.length_eq_zero.mp (Nat.le_zero.mp hP)]; rfl
  | succ f ih =>
    intro P hP
    by_cases hE : P.isEmpty
    · rw [List.isEmpty_iff.mp hE]; rfl
    · have hne : P ≠ [] := by simpa [List.isEmpty_iff] using hE
      have hlen : (P.drop B).length ≤ f := by
        rw [List.length_drop]
        have : 0 < P.length := List.length_pos.mpr hne
        omega
      simp only [chunkGo, hE, Bool.false_eq_true, if_false, List.flatten_cons, ih _ hlen]
      exact List.take_append_drop B P

theorem chunk_flatten {B : Nat} (hB : 0 < B) (P : List Nat) : (chunk B P).flatten = P :=
  chunkGo_flatten B hB P.length P (Nat.le_refl _)

theorem chunkGo_subset (B : Nat) : ∀ f (P : List Nat), ∀ ch ∈ chunkGo B f P, ∀ x ∈ ch, x ∈ P := by
  intro f
  induction f with
  | zero => intro P ch hch; simp [chunkGo] at hch
  | succ f ih =>
    intro P ch hch x hx
    by_cases hE : P.isEmpty
    · simp [chunkGo, hE] at hch
    · simp only [chunkGo, hE, Bool.false_eq_true, if_false, List.mem_cons] at hch
      rcases hch with h | h
      · subst h; exact List.mem_of_mem_take hx
      · exact List.mem_of_mem_drop (ih (P.drop B) ch h x hx)

theorem chunk_subset (B : Nat) (P : List Nat) : ∀ ch ∈ chunk B P, ∀ x ∈ ch, x ∈ P :=
  chunkGo_subset B P.length P

theorem chunk_self {P : List Nat} (hne : P ≠ []) : chunk P.length P = [P] := by
  have hE : P.isEmpty = false := by simpa [List.isEmpty_iff] using hne
  have hlen : 0 < P.length := List.length_pos.mpr hne
  obtain ⟨f, hf⟩ : ∃ f, P.length = f + 1 := ⟨P.length - 1, by omega⟩
  simp only [chunk, hf, chunkGo, hE, Bool.false_eq_true, if_false]
  rw [← hf, List.take_length, List.drop_length, chunkGo_nil]

/-! ### Codecs, derivation modes, model cipher and signatures -/

/-- Key-derivation mode of the container (spec section 4.2). -/
inductive Mode where
  | two_pass
  | single_pass_firstN
deriving DecidableEq

/-- Supported authenticated-cipher identifier (the tests exercise AES-256-GCM). -/
inductive CipherId where
  | aes256gcm
deriving DecidableEq

/-- Pluggable compression codec (spec treats codecs as external collaborators
exposing `compress` / `decompress` with a round-trip law). -/
structure Codec where
  name : List Nat
  compress : List Nat → List Nat
  decompress : List Nat → List Nat
  rt : ∀ b, decompress (compress b) = b
  bounded : ∀ b, (∀ x ∈ b, x < 256) → ∀ x ∈ compress b, x < 256

def litLz4 : List Nat := [108, 122, 52]
def litZstd : List Nat := [122, 115, 116, 100]

/-- Model of the LZ4 codec (its internal algorithm is out of scope;
only the round-trip contract matters). -/
def lz4Model : Codec where
  name := litLz4
  compress := fun b => b
  decompress := fun b => b
  rt := fun _ => rfl
  bounded := fun _ h => h

/-- Model of the Zstandard codec. -/
def zstdModel : Codec where
  name := litZstd
  compress := fun b => b
  decompress := fun b => b
  rt := fun _ => rfl
  bounded := fun _ h => h

/-- Codec registry: resolve a compression id stored in metadata. -/
def lookupCodec (nm : List Nat) : Option Codec :=
  if nm = litLz4 then some lz4Model else if nm = litZstd then some zstdModel else none

/-- Content-derived key derivation (spec 4.2): `two_pass` hashes the whole
compressed stream, `single_pass_firstN` only its first `head` bytes. -/
def derive (mode : Mode) (head : Nat) (cs : List Nat) : Nat :=
  match mode with
  | .two_pass => toyHash cs
  | .single_pass_firstN => toyHash (cs.take head)

theorem derive_lt (mode : Mode) (head : Nat) (cs : List Nat) : derive mode head cs < 2 ^ 256 := by
  cases mode <;> exact toyHash_lt _

def litTwoPass : List Nat := [116, 119, 111, 95, 112, 97, 115, 115]
def litSinglePass : List Nat :=
  [115, 105, 110, 103, 108, 101, 95, 112, 97, 115, 115, 95, 102, 105, 114, 115, 116, 78]

/-- Wire name of a derivation mode. -/
def modeB : Mode → List Nat
  | .two_pass => litTwoPass
  | .single_pass_firstN => litSinglePass

/-- The `mode_tag` digest: authenticates the derivation mode and parameters
actually used (64 hex characters, SHA-256 sized). -/
def modeTagOf (mode : Mode) (head dek : Nat) : List Nat :=
  hexFix 64 (toyHash (modeB mode ++ 58 :: (natB head ++ 58 :: hexFix 64 dek)))

/-- Deterministic per-block nonce, derived from the base key and the block
index only (spec 4.3: never random). -/
def nonceOf (dek i : Nat) : Nat := dek * 2 ^ 64 + i

def encByte (s b : Nat) : Nat := (b + s) % 256
def decByte (s c : Nat) : Nat := (c + 256 - s % 256) % 256

theorem decByte_encByte (s : Nat) {b : Nat} (hb : b < 256) : decByte s (encByte s b) = b := by
  unfold encByte decByte
  omega

/-- Model authentication tag of a ciphertext block (32 bytes wide here). -/
def macTag (dek non : Nat) (ct : List Nat) : List Nat :=
  hexFix 32 (toyHash (hexFix 64 dek ++ hexFix 64 non ++ ct))

theorem length_macTag (dek non : Nat) (ct : List Nat) : (macTag dek non ct).length = 32 :=
  length_hexFix 32 _

/-- Authenticated encryption of one block: keystream addition plus an
appended authentication tag. -/
def sealB (dek non : Nat) (pt : List Nat) : List Nat :=
  pt.map (encByte (dek + non)) ++ macTag dek non (pt.map (encByte (dek + non)))

/-- Authenticated decryption of one block: verifies the tag, then inverts
the keystream; returns `none` on tag mismatch. -/
def aeadOpen (dek non : Nat) (ct : List Nat) : Option (List Nat) :=
  if ct.length < 32 then none
  else
    let body := ct.take (ct.length - 32)
    let tag := ct.drop (ct.length - 32)
    if tag = macTag dek non body then some (body.map (decByte (dek + non))) else none

theorem length_sealB (dek non : Nat) (pt : List Nat) : (sealB dek non pt).length = pt.length + 32 := by
  simp [sealB, length_macTag]

theorem aeadOpen_sealB (dek non : Nat) {pt : List Nat} (hb : ∀ x ∈ pt, x < 256) :
    aeadOpen dek non (sealB dek non pt) = some pt := by
  have hlen : (sealB dek non pt).length = pt.length + 32 := length_sealB dek non pt
  have hmap : (pt.map (encByte (dek + non))).length = pt.length := List.length_map _ _
  rw [aeadOpen, if_neg (by omega)]
  have hsub : (sealB dek non pt).length - 32 = (pt.map (encByte (dek + non))).length := by omega
  simp only [hlen]
  have htake : (sealB dek non pt).take (pt.length + 32 - 32) = pt.map (encByte (dek + non)) := by
    rw [sealB]
    have : pt.length + 32 - 32 = (pt.map (encByte (dek + non))).length := by simp
    rw [this, List.take_left]
  have hdrop : (sealB dek non pt).drop (pt.length + 32 - 32)
      = macTag dek non (pt.map (encByte (dek + non))) := by
    rw [sealB]
    have : pt.length + 32 - 32 = (pt.map (encByte (dek + non))).length := by simp
    rw [this, List.drop_left]
  rw [htake, hdrop, if_pos rfl, List.map_map]
  congr 1
  have : ∀ x ∈ pt, (decByte (dek + non) ∘ encByte (dek + non)) x = id x := by
    intro x hx
    simp [Function.comp, decByte_encByte (dek + non) (hb x hx)]
  rw [List.map_congr_left this, List.map_id]

/-- Model digital signature: deterministic, key- and message-binding
(the spec assumes an unforgeable signature collaborator). -/
def signBytes (k : Nat) (msg : List Nat) : List Nat := natB k ++ 58 :: msg

theorem signBytes_inj {k k' : Nat} {m m' : List Nat} (h : signBytes k m = signBytes k' m') :
    k = k' ∧ m = m' := by
  unfold signBytes at h
  have hsplit : ∀ (a b : List Nat) (x y : List Nat),
      (∀ c ∈ a, c ≠ 58) → (∀ c ∈ b, c ≠ 58) → a ++ 58 :: x = b ++ 58 :: y → a = b ∧ x = y := by
    intro a
    induction a with
    | nil =>
      intro b x y _ hb h
      cases b with
      | nil => simpa using h
      | cons z zs =>
        simp only [List.nil_append, List.cons_append, List.cons.injEq] at h
        exact absurd h.1.symm (hb z (by simp))
    | cons z zs ih =>
      intro b x y ha hb h
      cases b with
      | nil =>
        simp only [List.cons_append, List.nil_append, List.cons.injEq] at h
        exact absurd h.1 (ha z (by simp))
      | cons w ws =>
        simp only [List.cons_append, List.cons.injEq] at h
        obtain ⟨hzw, htl⟩ := h
        obtain ⟨h1, h2⟩ := ih ws x y (fun c hc => ha c (List.mem_cons_of_mem _ hc))
          (fun c hc => hb c (List.mem_cons_of_mem _ hc)) htl
        exact ⟨by rw [hzw, h1], h2⟩
  have hno58 : ∀ n : Nat, ∀ c ∈ natB n, c ≠ 58 := by
    intro n c hc
    have := isDigitB_eq_true.mp (natB_digits n c hc)
    omega
  obtain ⟨h1, h2⟩ := hsplit _ _ _ _ (hno58 k) (hno58 k') h
  exact ⟨natB_inj h1, h2⟩

/-- First-colon splitter used by envelope unwrapping. -/
def splitColon : List Nat → Option (List Nat × List Nat)
  | [] => none
  | x :: r => if x = 58 then some ([], r) else (splitColon r).map (fun p => (x :: p.1, p.2))

theorem splitColon_append (a : List Nat) (r : List Nat) (ha : ∀ x ∈ a, x ≠ 58) :
    splitColon (a ++ 58 :: r) = some (a, r) := by
  induction a with
  | nil => simp [splitColon]
  | cons x xs ih =>
    have hx : x ≠ 58 := ha x (by simp)
    simp [splitColon, hx, ih (fun z hz => ha z (List.mem_cons_of_mem _ hz))]

/-- Asymmetric key envelope: the DEK encrypted under the recipient's public
key (modelled symbolically by binding the recipient key id). -/
def wrapKey (p dek : Nat) : List Nat := hexB (natB p ++ 58 :: hexFix 64 dek)

/-- Unwrap the key envelope with a private key; fails unless the key matches. -/
def unwrapKey (p : Nat) (env : List Nat) : Option Nat :=
  (hexUn env).bind fun bs =>
    (splitColon bs).bind fun pr =>
      if vGo 0 pr.1 = p then some (hVal pr.2) else none

theorem unwrapKey_wrapKey (p : Nat) {dek : Nat} (hd : dek < 2 ^ 256) :
    unwrapKey p (wrapKey p dek) = some dek := by
  have hbound : ∀ x ∈ natB p ++ 58 :: hexFix 64 dek, x < 256 := by
    intro x hx
    rcases List.mem_append.mp hx with h | h
    · exact lt256_of_isDigitB (natB_digits p x h)
    · rcases h with _ | ⟨_, h⟩
      · omega
      · exact lt256_of_isHexB (hexFix_hex 64 dek x h)
  have hno58 : ∀ c ∈ natB p, c ≠ 58 := by
    intro c hc
    have := isDigitB_eq_true.mp (natB_digits p c hc)
    omega
  have h16 : (16 : Nat) ^ 64 = 2 ^ 256 := by norm_num
  rw [unwrapKey, wrapKey, hexUn_hexB hbound]
  simp only [Option.some_bind]
  rw [splitColon_append _ _ hno58]
  simp only [Option.some_bind, vGo_natB, eq_self_iff_true, if_true]
  rw [hVal_hexFix (by omega)]

/-! ### The metadata block and its canonical serialization

The metadata block is serialized as compact JSON with lexicographically
sorted keys (`block_size`, `blocks`, `cipher`, `compression`, `dek`,
`head_bytes`, `key_envelope`, `length`, `mode`, `mode_tag`,
`signature`); the signature field, when present, is the last field and
covers the canonical serialization of all fields before it. -/

/-- One block-table descriptor (spec section 3). -/
structure BlockDesc where
  idx : Nat
  ctOff : Nat
  ctLen : Nat
  ptLen : Nat
deriving DecidableEq

/-- Parsed metadata record.  `dekH` holds the hex-encoded clear DEK
(symmetric mode; the spec notes the DEK is persisted in the clear exactly
when no envelope is used and the keyless tests demand it), `keyEnv` the
hex-encoded asymmetric key envelope, `sig` the hex-encoded signature. -/
structure MetaBlock where
  blockSize : Nat
  blocks : List BlockDesc
  cipher : CipherId
  compName : List Nat
  dekH : Option (List Nat)
  headBytes : Nat
  keyEnv : Option (List Nat)
  lengthTotal : Nat
  mode : Mode
  modeTag : List Nat
  sig : Option (List Nat)
deriving DecidableEq

def litHdrBS : List Nat := [123, 34, 98, 108, 111, 99, 107, 95, 115, 105, 122, 101, 34, 58]
def litBlocks : List Nat := [44, 34, 98, 108, 111, 99, 107, 115, 34, 58, 91]
def litCipherComp : List Nat :=
  [44, 34, 99, 105, 112, 104, 101, 114, 34, 58, 34, 97, 101, 115, 50, 53, 54, 45, 103, 99, 109,
   34, 44, 34, 99, 111, 109, 112, 114, 101, 115, 115, 105, 111, 110, 34, 58, 34]
def litDek : List Nat := [34, 44, 34, 100, 101, 107, 34, 58, 34]
def litHeadBytes : List Nat := [34, 44, 34, 104, 101, 97, 100, 95, 98, 121, 116, 101, 115, 34, 58]
def litKeyEnv : List Nat := [44, 34, 107, 101, 121, 95, 101, 110, 118, 101, 108, 111, 112, 101, 34, 58, 34]
def litLen : List Nat := [44, 34, 108, 101, 110, 103, 116, 104, 34, 58]
def litLenAfterHex : List Nat := [34, 44, 34, 108, 101, 110, 103, 116, 104, 34, 58]
def litMode : List Nat := [44, 34, 109, 111, 100, 101, 34, 58, 34]
def litModeTag : List Nat := [34, 44, 34, 109, 111, 100, 101, 95, 116, 97, 103, 34, 58, 34]
def litSig : List Nat := [34, 44, 34, 115, 105, 103, 110, 97, 116, 117, 114, 101, 34, 58, 34]
def litEnd : List Nat := [34, 125]

/-- Serialized cipher-and-compression field prefix (the supported cipher id
is AES-256-GCM). -/
def cipherCompB : CipherId → List Nat
  | .aes256gcm => litCipherComp

/-- Serialization of one block descriptor as a JSON quadruple. -/
def quadB (q : BlockDesc) : List Nat :=
  91 :: (natB q.idx ++ 44 :: (natB q.ctOff ++ 44 :: (natB q.ctLen ++ 44 :: (natB q.ptLen ++ [93]))))

/-- Serialization of the block table entries, comma separated. -/
def quadsTail : List BlockDesc → List Nat
  | [] => []
  | [q] => quadB q
  | q :: rest => quadB q ++ 44 :: quadsTail rest

/-- Optional clear-DEK field. -/
def dekPart : Option (List Nat) → List Nat
  | none => []
  | some d => litDek ++ d

/-- Optional key-envelope field followed by the `length` key. -/
def envLenPart : Option (List Nat) → List Nat
  | none => litLen
  | some e => litKeyEnv ++ e ++ litLenAfterHex

/-- Canonical serialization of all metadata fields before the optional
signature field (this is the byte string the signature covers, bar the
closing `"}`). -/
def core (m : MetaBlock) : List Nat :=
  litHdrBS ++ natB m.blockSize ++ litBlocks ++ quadsTail m.blocks ++ 93 ::
    (cipherCompB m.cipher ++ m.compName ++ dekPart m.dekH ++ litHeadBytes ++
      natB m.headBytes ++ envLenPart m.keyEnv ++ natB m.lengthTotal ++ litMode ++
      modeB m.mode ++ litModeTag ++ m.modeTag)

/-- Optional signature field together with the closing `"}`. -/
def sigPart : Option (List Nat) → List Nat
  | none => litEnd
  | some s => litSig ++ s ++ litEnd

/-- Canonical serialization of the whole metadata block. -/
def S (m : MetaBlock) : List Nat := core m ++ sigPart m.sig

/-- The canonical metadata bytes the signature is computed over: the
serialization of the record with the signature field absent. -/
def sigMsg (m : MetaBlock) : List Nat := core m ++ litEnd

/-- Structural well-formedness of a metadata record: known compression id
and hex-only string fields. -/
def WFb (m : MetaBlock) : Bool :=
  (decide (m.compName = litLz4) || decide (m.compName = litZstd))
  && m.modeTag.all isHexB
  && (m.dekH.getD []).all isHexB
  && (m.keyEnv.getD []).all isHexB
  && (m.sig.getD []).all isHexB

/-! ### Metadata parser -/

/-- Parse one block descriptor. -/
def parseQuad (b : List Nat) : Option (BlockDesc × List Nat) :=
  (lit [91] b).bind fun b1 =>
  (parseNat b1).bind fun ⟨i, b2⟩ =>
  (lit [44] b2).bind fun b3 =>
  (parseNat b3).bind fun ⟨o, b4⟩ =>
  (lit [44] b4).bind fun b5 =>
  (parseNat b5).bind fun ⟨c, b6⟩ =>
  (lit [44] b6).bind fun b7 =>
  (parseNat b7).bind fun ⟨p, b8⟩ =>
  (lit [93] b8).map fun r => (⟨i, o, c, p⟩, r)

/-- Fueled block-table parser; consumes the closing `]`. -/
def parseQuadsGo : Nat → List Nat → Option (List BlockDesc × List Nat)
  | 0, _ => none
  | f + 1, b =>
    match b with
    | [] => none
    | x :: r =>
      if x = 93 then some ([], r)
      else
        (parseQuad (x :: r)).bind fun ⟨q, b1⟩ =>
          match b1 with
          | [] => none
          | y :: b2 =>
            if y = 44 then (parseQuadsGo f b2).map fun ⟨qs, rest⟩ => (q :: qs, rest)
            else if y = 93 then some ([q], b2)
            else none

def parseQuads (b : List Nat) : Option (List BlockDesc × List Nat) :=
  parseQuadsGo b.length b

/-- Parse the compression name. -/
def parseCompName (b : List Nat) : Option (List Nat × List Nat) :=
  match lit litLz4 b with
  | some r => some (litLz4, r)
  | none =>
    match lit litZstd b with
    | some r => some (litZstd, r)
    | none => none

/-- Parse the optional clear-DEK field, then the `head_bytes` key. -/
def parseDekOpt (b : List Nat) : Option (Option (List Nat) × List Nat) :=
  match lit litDek b with
  | some b1 =>
    let pr := hexSpan b1
    (lit litHeadBytes pr.2).map fun r => (some pr.1, r)
  | none => (lit litHeadBytes b).map fun r => (none, r)

/-- Parse the optional key-envelope field, then the `length` key. -/
def parseEnvLen (b : List Nat) : Option (Option (List Nat) × List Nat) :=
  match lit litKeyEnv b with
  | some b1 =>
    let pr := hexSpan b1
    (lit litLenAfterHex pr.2).map fun r => (some pr.1, r)
  | none => (lit litLen b).map fun r => (none, r)

/-- Parse the derivation-mode name. -/
def parseMode (b : List Nat) : Option (Mode × List Nat) :=
  match lit litTwoPass b with
  | some r => some (.two_pass, r)
  | none =>
    match lit litSinglePass b with
    | some r => some (.single_pass_firstN, r)
    | none => none

/-- Parse the optional signature field and the closing `"}`. -/
def parseSigEnd (b : List Nat) : Option (Option (List Nat) × List Nat) :=
  match lit litSig b with
  | some b1 =>
    let pr := hexSpan b1
    (lit litEnd pr.2).map fun r => (some pr.1, r)
  | none => (lit litEnd b).map fun r => (none, r)

/-- Recursive-descent parser for the canonical metadata grammar. -/
def parseMeta (b : List Nat) : Option (MetaBlock × List Nat) :=
  (lit litHdrBS b).bind fun b1 =>
  (parseNat b1).bind fun ⟨bs, b2⟩ =>
  (lit litBlocks b2).bind fun b3 =>
  (parseQuads b3).bind fun ⟨qs, b4⟩ =>
  (lit litCipherComp b4).bind fun b5 =>
  (parseCompName b5).bind fun ⟨nm, b6⟩ =>
  (parseDekOpt b6).bind fun ⟨dk, b7⟩ =>
  (parseNat b7).bind fun ⟨hd, b8⟩ =>
  (parseEnvLen b8).bind fun ⟨env, b9⟩ =>
  (parseNat b9).bind fun ⟨tot, b10⟩ =>
  (lit litMode b10).bind fun b11 =>
  (parseMode b11).bind fun ⟨md, b12⟩ =>
  (lit litModeTag b12).bind fun b13 =>
  (let pr := hexSpan b13
   (parseSigEnd pr.2).map fun ⟨sg, rest⟩ =>
     (⟨bs, qs, .aes256gcm, nm, dk, hd, env, tot, md, pr.1, sg⟩, rest))

/-- Checked canonical decoding of the metadata bytes: the parse must
consume the input exactly, the record must be well formed, and its
canonical re-serialization must reproduce the input byte for byte
(spec 4.1 makes canonical serialization mandatory for the signed
region). -/
def parseMetaBytes (b : List Nat) : Option MetaBlock :=
  (parseMeta b).bind fun pr =>
    if pr.2 = [] ∧ WFb pr.1 = true ∧ S pr.1 = b then some pr.1 else none

/-! ### Parser round-trip lemmas -/

theorem WFb_comp {m : MetaBlock} (h : WFb m = true) :
    m.compName = litLz4 ∨ m.compName = litZstd := by
  simp only [WFb, Bool.and_eq_true, Bool.or_eq_true, decide_eq_true_eq] at h
  exact h.1.1.1.1

theorem WFb_modeTag {m : MetaBlock} (h : WFb m = true) : ∀ x ∈ m.modeTag, isHexB x = true := by
  simp only [WFb, Bool.and_eq_true, List.all_eq_true] at h
  exact h.1.1.1.2

theorem WFb_dek {m : MetaBlock} (h : WFb m = true) : ∀ x ∈ m.dekH.getD [], isHexB x = true := by
  simp only [WFb, Bool.and_eq_true, List.all_eq_true] at h
  exact h.1.1.2

theorem WFb_env {m : MetaBlock} (h : WFb m = true) : ∀ x ∈ m.keyEnv.getD [], isHexB x = true := by
  simp only [WFb, Bool.and_eq_true, List.all_eq_true] at h
  exact h.1.2

theorem WFb_sig {m : MetaBlock} (h : WFb m = true) : ∀ x ∈ m.sig.getD [], isHexB x = true := by
  simp only [WFb, Bool.and_eq_true, List.all_eq_true] at h
  exact h.2

theorem parseNat_seq {c : Nat} {tl : List Nat} (n : Nat) (L : List Nat) {r : List Nat}
    (hL : L = c :: tl) (hc : isDigitB c = false) :
    parseNat (natB n ++ (L ++ r)) = some (n, L ++ r) := by
  subst hL
  rw [List.cons_append]
  exact parseNat_rt n c (tl ++ r) hc

theorem hexSpan_seq {tl : List Nat} (d : List Nat) (L : List Nat) {r : List Nat}
    (hL : L = 34 :: tl) (hd : ∀ x ∈ d, isHexB x = true) :
    hexSpan (d ++ (L ++ r)) = (d, L ++ r) := by
  subst hL
  rw [List.cons_append]
  exact hexSpan_rt d (tl ++ r) hd

theorem lit1_rt (x : Nat) (r : List Nat) : lit [x] (x :: r) = some r := by
  simp [lit]

theorem parseQuad_rt (q : BlockDesc) (rest : List Nat) :
    parseQuad (quadB q ++ rest) = some (q, rest) := by
  simp only [quadB, List.cons_append, List.append_assoc, List.nil_append, parseQuad]
  rw [lit1_rt]
  simp only [Option.some_bind]
  rw [parseNat_rt _ 44 _ (by decide)]
  simp only [Option.some_bind]
  rw [lit1_rt]
  simp only [Option.some_bind]
  rw [parseNat_rt _ 44 _ (by decide)]
  simp only [Option.some_bind]
  rw [lit1_rt]
  simp only [Option.some_bind]
  rw [parseNat_rt _ 44 _ (by decide)]
  simp only [Option.some_bind]
  rw [lit1_rt]
  simp only [Option.some_bind]
  rw [parseNat_rt _ 93 _ (by decide)]
  simp only [Option.some_bind]
  rw [lit1_rt]
  simp only [Option.map_some']

theorem quadsTail_len (qs : List BlockDesc) : qs.length ≤ (quadsTail qs).length := by
  induction qs with
  | nil => simp [quadsTail]
  | cons q tail ih =>
    cases tail with
    | nil => simp [quadsTail, quadB]
    | cons t ts =>
      have h := ih
      simp only [quadsTail, List.length_append, List.length_cons, quadB] at *
      omega

theorem parseQuadsGo_rt (qs : List BlockDesc) : ∀ f (r : List Nat), qs.length < f →
    parseQuadsGo f (quadsTail qs ++ 93 :: r) = some (qs, r) := by
  induction qs with
  | nil =>
    intro f r hf
    obtain ⟨f', hf'⟩ : ∃ f', f = f' + 1 := ⟨f - 1, by omega⟩
    subst hf'
    simp [quadsTail, parseQuadsGo]
  | cons q tail ih =>
    intro f r hf
    obtain ⟨f', hf'⟩ : ∃ f', f = f' + 1 := ⟨f - 1, by omega⟩
    subst hf'
    cases tail with
    | nil =>
      have hq : quadsTail [q] = quadB q := rfl
      rw [hq]
      have hqb : ∃ t, quadB q = 91 :: t := ⟨_, rfl⟩
      obtain ⟨t, ht⟩ := hqb
      rw [ht, List.cons_append, parseQuadsGo]
      rw [if_neg (by decide)]
      rw [← List.cons_append, ← ht, parseQuad_rt]
      simp
    | cons t ts =>
      have hq : quadsTail (q :: t :: ts) = quadB q ++ 44 :: quadsTail (t :: ts) := rfl
      rw [hq]
      have hqb : ∃ u, quadB q = 91 :: u := ⟨_, rfl⟩
      obtain ⟨u, hu⟩ := hqb
      rw [List.append_assoc, hu, List.cons_append, parseQuadsGo]
      rw [if_neg (by decide)]
      rw [← List.cons_append, ← hu]
      have hcons : (44 : Nat) :: quadsTail (t :: ts) ++ 93 :: r
          = 44 :: (quadsTail (t :: ts) ++ 93 :: r) := rfl
      rw [hcons, parseQuad_rt]
      simp only [Option.some_bind, if_pos rfl]
      rw [ih f' r (by simp at hf ⊢; omega)]
      simp

theorem parseQuads_rt (qs : List BlockDesc) (r : List Nat) :
    parseQuads (quadsTail qs ++ 93 :: r) = some (qs, r) := by
  rw [parseQuads]
  apply parseQuadsGo_rt
  have := quadsTail_len qs
  simp only [List.length_append, List.length_cons]
  omega

theorem parseCompName_rt {nm : List Nat} (hnm : nm = litLz4 ∨ nm = litZstd) (r : List Nat) :
    parseCompName (nm ++ r) = some (nm, r) := by
  rcases hnm with h | h <;> subst h
  · rw [parseCompName, lit_rt]
  · have hfail : lit litLz4 (litZstd ++ r) = none := by simp [lit, litLz4, litZstd]
    rw [parseCompName, hfail, lit_rt]

theorem parseDekOpt_rt (dk : Option (List Nat)) (hdk : ∀ x ∈ dk.getD [], isHexB x = true)
    (r : List Nat) :
    parseDekOpt (dekPart dk ++ (litHeadBytes ++ r)) = some (dk, r) := by
  cases dk with
  | none =>
    have hfail : lit litDek (litHeadBytes ++ r) = none := by
      simp [lit, litDek, litHeadBytes]
    simp only [dekPart, List.nil_append, parseDekOpt, hfail, lit_rt, Option.map_some']
  | some d =>
    simp only [Option.getD] at hdk
    simp only [dekPart, List.append_assoc, parseDekOpt, lit_rt]
    rw [hexSpan_seq d litHeadBytes rfl hdk]
    simp only [lit_rt, Option.map_some']

theorem parseEnvLen_rt (env : Option (List Nat)) (henv : ∀ x ∈ env.getD [], isHexB x = true)
    (r : List Nat) :
    parseEnvLen (envLenPart env ++ r) = some (env, r) := by
  cases env with
  | none =>
    have hfail : lit litKeyEnv (litLen ++ r) = none := by
      simp [lit, litKeyEnv, litLen]
    simp only [envLenPart, parseEnvLen, hfail, lit_rt, Option.map_some']
  | some e =>
    simp only [Option.getD] at henv
    simp only [envLenPart, List.append_assoc, parseEnvLen, lit_rt]
    rw [hexSpan_seq e litLenAfterHex rfl henv]
    simp only [lit_rt, Option.map_some']

theorem parseMode_rt (md : Mode) (r : List Nat) : parseMode (modeB md ++ r) = some (md, r) := by
  cases md with
  | two_pass => rw [parseMode, modeB, lit_rt]
  | single_pass_firstN =>
    have hfail : lit litTwoPass (litSinglePass ++ r) = none := by
      simp [lit, litTwoPass, litSinglePass]
    rw [parseMode, modeB, hfail, lit_rt]

theorem parseSigEnd_rt (sg : Option (List Nat)) (hsg : ∀ x ∈ sg.getD [], isHexB x = true)
    (r : List Nat) :
    parseSigEnd (sigPart sg ++ r) = some (sg, r) := by
  cases sg with
  | none =>
    have hfail : lit litSig (litEnd ++ r) = none := by
      simp [lit, litSig, litEnd]
    simp only [sigPart, parseSigEnd, hfail, lit_rt, Option.map_some']
  | some s =>
    simp only [Option.getD] at hsg
    simp only [sigPart, List.append_assoc, parseSigEnd, lit_rt]
    rw [hexSpan_seq s litEnd rfl hsg]
    simp only [lit_rt, Option.map_some']

theorem envLenPart_head (env : Option (List Nat)) : ∃ tl, envLenPart env = 44 :: tl := by
  cases env <;> exact ⟨_, rfl⟩

theorem sigPart_head (sg : Option (List Nat)) : ∃ tl, sigPart sg = 34 :: tl := by
  cases sg <;> exact ⟨_, rfl⟩

set_option maxHeartbeats 1000000 in
/-- Serialize-then-parse round trip of the metadata codec: parsing the
canonical serialization of a well-formed record followed by any
continuation consumes exactly the serialization and returns the record. -/
theorem parseMeta_rt (m : MetaBlock) (h : WFb m = true) (ext : List Nat) :
    parseMeta (S m ++ ext) = some (m, ext) := by
  have hcip : m.cipher = .aes256gcm := by cases hc : m.cipher; rfl
  obtain ⟨tlE, htlE⟩ := envLenPart_head m.keyEnv
  obtain ⟨tlS, htlS⟩ := sigPart_head m.sig
  simp only [S, core, hcip, cipherCompB, List.append_assoc, List.cons_append]
  unfold parseMeta
  rw [lit_rt]
  simp only [Option.some_bind]
  rw [parseNat_seq m.blockSize litBlocks rfl (by decide)]
  simp only [Option.some_bind]
  rw [lit_rt]
  simp only [Option.some_bind]
  rw [parseQuads_rt]
  simp only [Option.some_bind]
  rw [lit_rt]
  simp only [Option.some_bind]
  rw [parseCompName_rt (WFb_comp h)]
  simp only [Option.some_bind]
  rw [parseDekOpt_rt m.dekH (WFb_dek h)]
  simp only [Option.some_bind]
  rw [parseNat_seq m.headBytes (envLenPart m.keyEnv) htlE (by decide)]
  simp only [Option.some_bind]
  rw [parseEnvLen_rt m.keyEnv (WFb_env h)]
  simp only [Option.some_bind]
  rw [parseNat_seq m.lengthTotal litMode rfl (by decide)]
  simp only [Option.some_bind]
  rw [lit_rt]
  simp only [Option.some_bind]
  rw [parseMode_rt m.mode]
  simp only [Option.some_bind]
  rw [lit_rt]
  simp only [Option.some_bind]
  rw [hexSpan_seq m.modeTag (sigPart m.sig) htlS (WFb_modeTag h)]
  rw [parseSigEnd_rt m.sig (WFb_sig h)]
  simp only [Option.map_some']

/-! ### The container engine: pack, unpack, seek -/

/-- Error taxonomy of the engine (spec section 7). -/
inductive Err where
  | formatError
  | integrityError
  | signatureError
  | keyUnwrapError
  | configError
deriving DecidableEq

/-- Fixed 10-byte container header: 4-byte magic, 3-byte format version,
3 reserved bytes. -/
def hdr10 : List Nat := [81, 76, 84, 88, 0, 0, 4, 0, 0, 0]

/-- Encrypt the chunk list into ciphertext blocks: per-block compression,
then authenticated encryption under a nonce derived from the base key and
the block index; also builds the block table (index, ciphertext offset,
ciphertext length, plaintext length). -/
def buildBlocks (dek : Nat) (codec : Codec) : Nat → Nat → List (List Nat) → List BlockDesc × List Nat
  | _, _, [] => ([], [])
  | i, off, ch :: rest =>
    let ct := sealB dek (nonceOf dek i) (codec.compress ch)
    let pr := buildBlocks dek codec (i + 1) (off + ct.length) rest
    (⟨i, off, ct.length, ch.length⟩ :: pr.1, ct ++ pr.2)

/-- Decrypt and decompress every block listed in the table, in table
order; fails with `none` on any authentication-tag mismatch. -/
def decodeTable (dek : Nat) (codec : Codec) (stream : List Nat) : List BlockDesc → Option (List (List Nat))
  | [] => some []
  | q :: rest =>
    let ct := (stream.drop q.ctOff).take q.ctLen
    match aeadOpen dek (nonceOf dek q.idx) ct with
    | none => none
    | some comp =>
      match decodeTable dek codec stream rest with
      | none => none
      | some tl => some (codec.decompress comp :: tl)

/-- Walk the block table with a plaintext byte range `[s, e)` relative to
the current block: blocks before the range are skipped without being
decrypted, blocks after it are not visited, and each intersecting block is
decrypted, decompressed, and sliced to its part of the range. -/
def seekWalk (dek : Nat) (codec : Codec) (stream : List Nat) : Nat → Nat → List BlockDesc → Option (List Nat)
  | _, _, [] => some []
  | s, e, q :: rest =>
    if e ≤ s then some []
    else if q.ptLen ≤ s then seekWalk dek codec stream (s - q.ptLen) (e - q.ptLen) rest
    else
      let ct := (stream.drop q.ctOff).take q.ctLen
      match aeadOpen dek (nonceOf dek q.idx) ct with
      | none => none
      | some comp =>
        let pt := codec.decompress comp
        match seekWalk dek codec stream (s - q.ptLen) (e - q.ptLen) rest with
        | none => none
        | some tl => some ((pt.drop s).take (e - s) ++ tl)

/-- The content-derived DEK of a pack invocation: derived from the
compressed stream (the concatenation of the per-block compressed data)
according to the chosen mode. -/
def packDek (P : List Nat) (B : Nat) (codec : Codec) (mode : Mode) (head : Nat) : Nat :=
  derive mode head ((chunk B P).map codec.compress).flatten

/-- Block table and ciphertext stream of a pack invocation. -/
def packBB (P : List Nat) (B : Nat) (codec : Codec) (mode : Mode) (head : Nat) :
    List BlockDesc × List Nat :=
  buildBlocks (packDek P B codec mode head) codec 0 0 (chunk B P)

/-- Metadata record of a pack invocation before signing.  In symmetric
mode the DEK is stored in the clear (the spec says the DEK is never
persisted in the clear exactly when an envelope is used, and the test
corpus unpacks symmetric containers with no key material); in asymmetric
mode only the key envelope is stored. -/
def packMeta0 (P : List Nat) (B : Nat) (codec : Codec) (ci : CipherId) (mode : Mode)
    (head : Nat) (pub : Option Nat) : MetaBlock :=
  let dek := packDek P B codec mode head
  { blockSize := B
    blocks := (packBB P B codec mode head).1
    cipher := ci
    compName := codec.name
    dekH := match pub with | some _ => none | none => some (hexFix 64 dek)
    headBytes := head
    keyEnv := pub.map fun p => wrapKey p dek
    lengthTotal := P.length
    mode := mode
    modeTag := modeTagOf mode head dek
    sig := none }

/-- Metadata record of a pack invocation, signed when a signing key is
supplied: the signature covers the canonical serialization of the record
without the signature field. -/
def packMeta (P : List Nat) (B : Nat) (codec : Codec) (ci : CipherId) (mode : Mode)
    (head : Nat) (pub sk : Option Nat) : MetaBlock :=
  let m0 := packMeta0 P B codec ci mode head pub
  match sk with
  | none => m0
  | some k => { m0 with sig := some (hexB (signBytes k (S m0))) }

/-- Pack a payload into a container (spec 4.4): validate the block size,
split into blocks, compress, derive the content key, encrypt the blocks,
assemble and canonically serialize the metadata, optionally sign it, and
emit header, length field, metadata bytes and the ciphertext stream. -/
def pack (P : List Nat) (B : Nat) (codec : Codec) (ci : CipherId) (mode : Mode)
    (head : Nat) (pub sk : Option Nat) : Option (List Nat) :=
  if B = 0 then none
  else
    let mb := S (packMeta P B codec ci mode head pub sk)
    if mb.length < 2 ^ 32 then
      some (hdr10 ++ (be32 mb.length ++ (mb ++ (packBB P B codec mode head).2)))
    else none

/-- Signature gate of the reader (spec 4.5): verified only when a
verification key is supplied; missing or mismatching signatures abort
before any block is touched. -/
def sigGate (m : MetaBlock) (vk : Option Nat) : Except Err Unit :=
  match vk with
  | none => .ok ()
  | some k =>
    match m.sig with
    | none => .error .signatureError
    | some s =>
      if s = hexB (signBytes k (sigMsg m)) then .ok () else .error .signatureError

/-- Obtain the DEK at read time: unwrap the envelope with the private key
in asymmetric mode, or read the clear DEK field in symmetric mode. -/
def getDekE (m : MetaBlock) (priv : Option Nat) : Except Err Nat :=
  match m.keyEnv with
  | some env =>
    match priv with
    | none => .error .keyUnwrapError
    | some p =>
      match unwrapKey p env with
      | none => .error .keyUnwrapError
      | some d => .ok d
  | none =>
    match m.dekH with
    | some dh => .ok (hVal dh)
    | none => .error .formatError

/-- Full unpack (spec 4.5): parse and validate header and metadata, apply
the signature gate, obtain the DEK, check the `mode_tag`, then decrypt and
decompress every block in index order and concatenate. -/
def unpack (f : List Nat) (priv vk : Option Nat) : Except Err (List Nat) :=
  if f.take 10 = hdr10 then
    let L := beVal ((f.drop 10).take 4)
    if 14 + L ≤ f.length then
      match parseMetaBytes ((f.drop 14).take L) with
      | none => .error .formatError
      | some m =>
        match sigGate m vk with
        | .error e => .error e
        | .ok _ =>
          match lookupCodec m.compName with
          | none => .error .configError
          | some codec =>
            match getDekE m priv with
            | .error e => .error e
            | .ok dek =>
              if m.modeTag = modeTagOf m.mode m.headBytes dek then
                match decodeTable dek codec (f.drop (14 + L)) m.blocks with
                | none => .error .integrityError
                | some chunks => .ok chunks.flatten
              else .error .integrityError
    else .error .formatError
  else .error .formatError

/-- Random-access read (spec 4.5): same header, key-derivation and
`mode_tag` steps as full unpack, then clamp the requested length at
end of stream, decrypt only the intersecting blocks, and slice out the
requested sub-range. -/
def seek (f : List Nat) (off len : Nat) (priv : Option Nat) : Except Err (List Nat) :=
  if f.take 10 = hdr10 then
    let L := beVal ((f.drop 10).take 4)
    if 14 + L ≤ f.length then
      match parseMetaBytes ((f.drop 14).take L) with
      | none => .error .formatError
      | some m =>
        match lookupCodec m.compName with
        | none => .error .configError
        | some codec =>
          match getDekE m priv with
          | .error e => .error e
          | .ok dek =>
            if m.modeTag = modeTagOf m.mode m.headBytes dek then
              match seekWalk dek codec (f.drop (14 + L)) off (min (off + len) m.lengthTotal) m.blocks with
              | none => .error .integrityError
              | some out => .ok out
            else .error .integrityError
    else .error .formatError
  else .error .formatError

/-- Metadata length field of a container file. -/
def metaLenOf (f : List Nat) : Nat := beVal ((f.drop 10).take 4)

/-- Decode just the metadata block of a container file. -/
def extractMeta (f : List Nat) : Option MetaBlock :=
  if f.take 10 = hdr10 ∧ 14 + metaLenOf f ≤ f.length then
    parseMetaBytes ((f.drop 14).take (metaLenOf f))
  else none

/-- Modelled from the spec: the CLI layer invokes the engine in `two_pass`
mode with no head-byte count when no explicit derivation-mode flag is
passed (the tests pack without `--mode` and the resulting containers use
`two_pass`). -/
def packDefault (P : List Nat) (B : Nat) (codec : Codec) (ci : CipherId)
    (pub sk : Option Nat) : Option (List Nat) :=
  pack P B codec ci Mode.two_pass 0 pub sk

/-! ### Byte-boundedness of serializations -/

/-- Every byte of the list is below 256. -/
def all256 (l : List Nat) : Prop := ∀ x ∈ l, x < 256

theorem all256_append {a b : List Nat} (ha : all256 a) (hb : all256 b) : all256 (a ++ b) := by
  intro x hx
  rcases List.mem_append.mp hx with h | h
  · exact ha x h
  · exact hb x h

theorem all256_cons {c : Nat} {l : List Nat} (hc : c < 256) (hl : all256 l) : all256 (c :: l) := by
  intro x hx
  rcases hx with _ | ⟨_, h⟩
  · exact hc
  · exact hl x h

theorem all256_of_hex {l : List Nat} (h : ∀ x ∈ l, isHexB x = true) : all256 l :=
  fun x hx => lt256_of_isHexB (h x hx)

theorem all256_natB (n : Nat) : all256 (natB n) :=
  fun x hx => lt256_of_isDigitB (natB_digits n x hx)

theorem all256_hexFix (k n : Nat) : all256 (hexFix k n) :=
  all256_of_hex (hexFix_hex k n)

theorem all256_hexB {bs : List Nat} (h : all256 bs) : all256 (hexB bs) :=
  all256_of_hex (hexB_hex h)

theorem all256_append_iff {a b : List Nat} : all256 (a ++ b) ↔ all256 a ∧ all256 b := by
  unfold all256
  constructor
  · intro h
    exact ⟨fun x hx => h x (List.mem_append.mpr (Or.inl hx)),
      fun x hx => h x (List.mem_append.mpr (Or.inr hx))⟩
  · rintro ⟨h1, h2⟩ x hx
    rcases List.mem_append.mp hx with h | h
    · exact h1 x h
    · exact h2 x h

theorem all256_cons_iff {c : Nat} {l : List Nat} : all256 (c :: l) ↔ c < 256 ∧ all256 l := by
  unfold all256
  simp

theorem all256_quadB (q : BlockDesc) : all256 (quadB q) := by
  simp only [quadB, all256_append_iff, all256_cons_iff]
  repeat' apply And.intro
  all_goals first
    | exact all256_natB _
    | omega
    | (unfold all256; decide)

theorem all256_quadsTail (qs : List BlockDesc) : all256 (quadsTail qs) := by
  induction qs with
  | nil => intro x hx; simp [quadsTail] at hx
  | cons q tail ih =>
    cases tail with
    | nil => exact all256_quadB q
    | cons t ts =>
      have hq : quadsTail (q :: t :: ts) = quadB q ++ 44 :: quadsTail (t :: ts) := rfl
      rw [hq]
      simp only [all256_append_iff, all256_cons_iff]
      exact ⟨all256_quadB q, by omega, ih⟩

theorem all256_modeB (md : Mode) : all256 (modeB md) := by
  cases md <;> (unfold all256; decide)

theorem all256_core {m : MetaBlock} (h : WFb m = true) : all256 (core m) := by
  have hcc : all256 (cipherCompB m.cipher) := by
    cases m.cipher; unfold all256; decide
  have hcomp : all256 m.compName := by
    rcases WFb_comp h with hc | hc <;> (rw [hc]; unfold all256; decide)
  have hdek : all256 (dekPart m.dekH) := by
    cases hdk : m.dekH with
    | none => intro x hx; simp [dekPart] at hx
    | some d =>
      have hd := WFb_dek h
      rw [hdk] at hd
      simp only [dekPart, all256_append_iff]
      exact ⟨by unfold all256; decide, all256_of_hex (by simpa using hd)⟩
  have henv : all256 (envLenPart m.keyEnv) := by
    cases hev : m.keyEnv with
    | none =>
      have hn : envLenPart none = litLen := rfl
      rw [hn]; unfold all256; decide
    | some e =>
      have he := WFb_env h
      rw [hev] at he
      simp only [envLenPart, all256_append_iff]
      exact ⟨⟨by unfold all256; decide, all256_of_hex (by simpa using he)⟩,
        by unfold all256; decide⟩
  simp only [core, all256_append_iff, all256_cons_iff]
  repeat' apply And.intro
  all_goals first
    | exact all256_natB _
    | exact all256_quadsTail _
    | exact hcc
    | exact hcomp
    | exact hdek
    | exact henv
    | exact all256_modeB _
    | exact all256_of_hex (WFb_modeTag h)
    | omega
    | (unfold all256; decide)

theorem all256_S {m : MetaBlock} (h : WFb m = true) : all256 (S m) := by
  have hsg : all256 (sigPart m.sig) := by
    cases hs : m.sig with
    | none =>
      have hn : sigPart none = litEnd := rfl
      rw [hn]; unfold all256; decide
    | some s =>
      have hv := WFb_sig h
      rw [hs] at hv
      simp only [sigPart, all256_append_iff]
      exact ⟨⟨by unfold all256; decide, all256_of_hex (by simpa using hv)⟩,
        by unfold all256; decide⟩
  rw [S, all256_append_iff]
  exact ⟨all256_core h, hsg⟩

/-! ### Pack produces well-formed containers -/

theorem WFb_intro {m : MetaBlock} (h1 : m.compName = litLz4 ∨ m.compName = litZstd)
    (h2 : ∀ x ∈ m.modeTag, isHexB x = true)
    (h3 : ∀ x ∈ m.dekH.getD [], isHexB x = true)
    (h4 : ∀ x ∈ m.keyEnv.getD [], isHexB x = true)
    (h5 : ∀ x ∈ m.sig.getD [], isHexB x = true) : WFb m = true := by
  simp only [WFb, Bool.and_eq_true, Bool.or_eq_true, decide_eq_true_eq, List.all_eq_true]
  exact ⟨⟨⟨⟨h1, h2⟩, h3⟩, h4⟩, h5⟩

theorem lookupCodec_name {codec : Codec} (h : lookupCodec codec.name = some codec) :
    codec.name = litLz4 ∨ codec.name = litZstd := by
  unfold lookupCodec at h
  by_cases h1 : codec.name = litLz4
  · exact Or.inl h1
  · rw [if_neg h1] at h
    by_cases h2 : codec.name = litZstd
    · exact Or.inr h2
    · rw [if_neg h2] at h; exact absurd h (by simp)

theorem WFb_packMeta0 (P : List Nat) (B : Nat) {codec : Codec}
    (hn : codec.name = litLz4 ∨ codec.name = litZstd) (ci : CipherId) (mode : Mode)
    (head : Nat) (pub : Option Nat) : WFb (packMeta0 P B codec ci mode head pub) = true := by
  apply WFb_intro
  · exact hn
  · exact hexFix_hex 64 _
  · cases pub with
    | none => exact hexFix_hex 64 _
    | some p => simp [packMeta0]
  · cases pub with
    | none => simp [packMeta0]
    | some p =>
      intro x hx
      apply hexB_hex _ x
      · simpa [packMeta0, wrapKey] using hx
      · intro y hy
        rcases List.mem_append.mp hy with h | h
        · exact lt256_of_isDigitB (natB_digits _ y h)
        · rcases h with _ | ⟨_, h⟩
          · omega
          · exact lt256_of_isHexB (hexFix_hex 64 _ y h)
  · simp [packMeta0]

theorem WFb_packMeta (P : List Nat) (B : Nat) {codec : Codec}
    (hn : codec.name = litLz4 ∨ codec.name = litZstd) (ci : CipherId) (mode : Mode)
    (head : Nat) (pub sk : Option Nat) : WFb (packMeta P B codec ci mode head pub sk) = true := by
  have h0 := WFb_packMeta0 P B hn ci mode head pub
  cases sk with
  | none => exact h0
  | some k =>
    have hpm : packMeta P B codec ci mode head pub (some k)
        = { packMeta0 P B codec ci mode head pub with
            sig := some (hexB (signBytes k (S (packMeta0 P B codec ci mode head pub)))) } := rfl
    rw [hpm]
    apply WFb_intro
    · simpa using WFb_comp h0
    · simpa using WFb_modeTag h0
    · simpa using WFb_dek h0
    · simpa using WFb_env h0
    · intro x hx
      simp only [Option.getD] at hx
      apply hexB_hex _ x hx
      intro y hy
      rcases List.mem_append.mp hy with h | h
      · exact lt256_of_isDigitB (natB_digits _ y h)
      · rcases h with _ | ⟨_, h⟩
        · omega
        · exact all256_S (WFb_packMeta0 P B hn ci mode head pub) y h

theorem parseMetaBytes_S {m : MetaBlock} (h : WFb m = true) : parseMetaBytes (S m) = some m := by
  have hp : parseMeta (S m) = some (m, []) := by simpa using parseMeta_rt m h []
  unfold parseMetaBytes
  rw [hp]
  simp [h]

theorem pack_eq {P : List Nat} {B : Nat} {codec : Codec} {ci : CipherId} {mode : Mode}
    {head : Nat} {pub sk : Option Nat} {f : List Nat}
    (hf : pack P B codec ci mode head pub sk = some f) :
    B ≠ 0 ∧ (S (packMeta P B codec ci mode head pub sk)).length < 2 ^ 32 ∧
      f = hdr10 ++ (be32 (S (packMeta P B codec ci mode head pub sk)).length ++
        (S (packMeta P B codec ci mode head pub sk) ++ (packBB P B codec mode head).2)) := by
  unfold pack at hf
  by_cases hB : B = 0
  · simp [hB] at hf
  · rw [if_neg hB] at hf
    by_cases hlen : (S (packMeta P B codec ci mode head pub sk)).length < 2 ^ 32
    · simp only [hlen, if_true, Option.some.injEq] at hf
      exact ⟨hB, hlen, hf.symm⟩
    · rw [if_neg hlen] at hf
      exact absurd hf (by simp)

/-! ### Container slicing -/

theorem cont_take10 (L : Nat) (mb st : List Nat) :
    (hdr10 ++ (be32 L ++ (mb ++ st))).take 10 = hdr10 :=
  List.take_left' rfl

theorem cont_drop10 (L : Nat) (mb st : List Nat) :
    (hdr10 ++ (be32 L ++ (mb ++ st))).drop 10 = be32 L ++ (mb ++ st) :=
  List.drop_left' rfl

theorem cont_lenfield (L : Nat) (mb st : List Nat) :
    ((hdr10 ++ (be32 L ++ (mb ++ st))).drop 10).take 4 = be32 L := by
  rw [cont_drop10]
  exact List.take_left' (length_be32 L)

theorem cont_drop14 (L : Nat) (mb st : List Nat) :
    (hdr10 ++ (be32 L ++ (mb ++ st))).drop 14 = mb ++ st := by
  rw [show (14 : Nat) = 10 + 4 from rfl, ← List.drop_drop, cont_drop10]
  exact List.drop_left' (length_be32 L)

theorem cont_meta (L : Nat) (mb st : List Nat) :
    ((hdr10 ++ (be32 L ++ (mb ++ st))).drop 14).take mb.length = mb := by
  rw [cont_drop14]
  exact List.take_left mb st

theorem cont_stream (L : Nat) (mb st : List Nat) :
    (hdr10 ++ (be32 L ++ (mb ++ st))).drop (14 + mb.length) = st := by
  rw [← List.drop_drop, cont_drop14]
  exact List.drop_left mb st

theorem cont_length (L : Nat) (mb st : List Nat) :
    (hdr10 ++ (be32 L ++ (mb ++ st))).length = 14 + mb.length + st.length := by
  simp [hdr10, length_be32]
  omega

/-! ### Decode round trip over the block pipeline -/

theorem decodeTable_buildBlocks (dek : Nat) (codec : Codec) (chunks : List (List Nat)) :
    ∀ (i off : Nat) (pre : List Nat), pre.length = off →
      (∀ ch ∈ chunks, all256 ch) →
      decodeTable dek codec (pre ++ (buildBlocks dek codec i off chunks).2)
        (buildBlocks dek codec i off chunks).1 = some chunks := by
  induction chunks with
  | nil => intro i off pre hpre hb; rfl
  | cons ch rest ih =>
    intro i off pre hpre hb
    have hcomp : all256 (codec.compress ch) :=
      fun x hx => codec.bounded ch (hb ch (by simp)) x hx
    simp only [buildBlocks]
    simp only [decodeTable]
    have hslice : ((pre ++ (sealB dek (nonceOf dek i) (codec.compress ch) ++
        (buildBlocks dek codec (i + 1) (off + (sealB dek (nonceOf dek i) (codec.compress ch)).length) rest).2)).drop off).take
          (sealB dek (nonceOf dek i) (codec.compress ch)).length
        = sealB dek (nonceOf dek i) (codec.compress ch) := by
      rw [List.drop_left' hpre]
      exact List.take_left _ _
    have hrest : decodeTable dek codec
        (pre ++ (sealB dek (nonceOf dek i) (codec.compress ch) ++
          (buildBlocks dek codec (i + 1) (off + (sealB dek (nonceOf dek i) (codec.compress ch)).length) rest).2))
        (buildBlocks dek codec (i + 1) (off + (sealB dek (nonceOf dek i) (codec.compress ch)).length) rest).1
        = some rest := by
      rw [← List.append_assoc]
      exact ih (i + 1) _ (pre ++ sealB dek (nonceOf dek i) (codec.compress ch))
        (by simp [hpre]) (fun c hc => hb c (List.mem_cons_of_mem _ hc))
    rw [hslice]
    simp only [aeadOpen_sealB dek _ hcomp, hrest, codec.rt]

/-! ### Reader stages on packed containers -/

theorem sigMsg_packMeta (P : List Nat) (B : Nat) (codec : Codec) (ci : CipherId) (mode : Mode)
    (head : Nat) (pub sk : Option Nat) :
    sigMsg (packMeta P B codec ci mode head pub sk) = S (packMeta0 P B codec ci mode head pub) := by
  cases sk <;> rfl

theorem sigGate_pack (P : List Nat) (B : Nat) (codec : Codec) (ci : CipherId) (mode : Mode)
    (head : Nat) (pub sk : Option Nat) :
    sigGate (packMeta P B codec ci mode head pub sk) sk = .ok () := by
  cases sk with
  | none => rfl
  | some k =>
    have hsig : (packMeta P B codec ci mode head pub (some k)).sig
        = some (hexB (signBytes k (S (packMeta0 P B codec ci mode head pub)))) := rfl
    simp [sigGate, hsig, sigMsg_packMeta]

theorem packMeta_compName (P : List Nat) (B : Nat) (codec : Codec) (ci : CipherId) (mode : Mode)
    (head : Nat) (pub sk : Option Nat) :
    (packMeta P B codec ci mode head pub sk).compName = codec.name := by
  cases sk <;> rfl

theorem packMeta_blocks (P : List Nat) (B : Nat) (codec : Codec) (ci : CipherId) (mode : Mode)
    (head : Nat) (pub sk : Option Nat) :
    (packMeta P B codec ci mode head pub sk).blocks = (packBB P B codec mode head).1 := by
  cases sk <;> rfl

theorem packMeta_mode (P : List Nat) (B : Nat) (codec : Codec) (ci : CipherId) (mode : Mode)
    (head : Nat) (pub sk : Option Nat) :
    (packMeta P B codec ci mode head pub sk).mode = mode := by
  cases sk <;> rfl

theorem packMeta_lengthTotal (P : List Nat) (B : Nat) (codec : Codec) (ci : CipherId) (mode : Mode)
    (head : Nat) (pub sk : Option Nat) :
    (packMeta P B codec ci mode head pub sk).lengthTotal = P.length := by
  cases sk <;> rfl

theorem packDek_lt (P : List Nat) (B : Nat) (codec : Codec) (mode : Mode) (head : Nat) :
    packDek P B codec mode head < 16 ^ 64 := by
  have h1 : (16 : Nat) ^ 64 = 2 ^ 256 := by norm_num
  rw [h1]
  exact derive_lt mode head _

theorem getDek_pack (P : List Nat) (B : Nat) (codec : Codec) (ci : CipherId) (mode : Mode)
    (head : Nat) (pub sk : Option Nat) :
    getDekE (packMeta P B codec ci mode head pub sk) pub = .ok (packDek P B codec mode head) := by
  cases pub with
  | none =>
    have h1 : (packMeta P B codec ci mode head none sk).keyEnv = none := by cases sk <;> rfl
    have h2 : (packMeta P B codec ci mode head none sk).dekH
        = some (hexFix 64 (packDek P B codec mode head)) := by cases sk <;> rfl
    simp only [getDekE, h1, h2, Except.ok.injEq]
    exact hVal_hexFix (packDek_lt P B codec mode head)
  | some p =>
    have h1 : (packMeta P B codec ci mode head (some p) sk).keyEnv
        = some (wrapKey p (packDek P B codec mode head)) := by cases sk <;> rfl
    have h2 : packDek P B codec mode head < 2 ^ 256 := derive_lt mode head _
    simp only [getDekE, h1, unwrapKey_wrapKey p h2]

theorem packMeta_modeTag_check (P : List Nat) (B : Nat) (codec : Codec) (ci : CipherId)
    (mode : Mode) (head : Nat) (pub sk : Option Nat) :
    (packMeta P B codec ci mode head pub sk).modeTag
      = modeTagOf (packMeta P B codec ci mode head pub sk).mode
        (packMeta P B codec ci mode head pub sk).headBytes (packDek P B codec mode head) := by
  cases sk <;> rfl

theorem decodeTable_packBB (P : List Nat) (hP : all256 P) (B : Nat) (codec : Codec)
    (mode : Mode) (head : Nat) :
    decodeTable (packDek P B codec mode head) codec (packBB P B codec mode head).2
      (packBB P B codec mode head).1 = some (chunk B P) := by
  have h := decodeTable_buildBlocks (packDek P B codec mode head) codec (chunk B P) 0 0 [] rfl
    (fun ch hch x hx => hP x (chunk_subset B P ch hch x hx))
  simpa [packBB] using h

/-- Full unpack inverts pack: unpacking a packed container with the
matching private key (in asymmetric mode) and the packing signature key
as verification key (when signed) returns the original payload. -/
theorem unpack_pack {P : List Nat} (hP : all256 P) {B : Nat} {codec : Codec}
    (hlook : lookupCodec codec.name = some codec) {ci : CipherId} {mode : Mode} {head : Nat}
    {pub sk : Option Nat} {f : List Nat}
    (hf : pack P B codec ci mode head pub sk = some f) :
    unpack f pub sk = .ok P := by
  obtain ⟨hB, hlen, hfe⟩ := pack_eq hf
  have hname := lookupCodec_name hlook
  have hwf : WFb (packMeta P B codec ci mode head pub sk) = true :=
    WFb_packMeta P B hname ci mode head pub sk
  subst hfe
  have hle : 14 + (S (packMeta P B codec ci mode head pub sk)).length ≤
      (hdr10 ++ (be32 (S (packMeta P B codec ci mode head pub sk)).length ++
        (S (packMeta P B codec ci mode head pub sk) ++ (packBB P B codec mode head).2))).length := by
    rw [cont_length]
    omega
  unfold unpack
  rw [cont_take10, if_pos rfl, cont_lenfield, beVal_be32 hlen, if_pos hle, cont_meta,
    parseMetaBytes_S hwf]
  simp only [sigGate_pack, packMeta_compName, hlook, getDek_pack]
  rw [if_pos (packMeta_modeTag_check P B codec ci mode head pub sk)]
  rw [cont_stream, packMeta_blocks]
  simp only [decodeTable_packBB P hP B codec mode head]
  rw [chunk_flatten (by omega) P]

/-! ### Seek round trip over the block pipeline -/

theorem drop_append_ge (a b : List Nat) {n : Nat} (h : a.length ≤ n) :
    (a ++ b).drop n = b.drop (n - a.length) := by
  rw [List.drop_append_eq_append_drop, List.drop_eq_nil_of_le h, List.nil_append]

theorem seekWalk_buildBlocks (dek : Nat) (codec : Codec) (chunks : List (List Nat)) :
    ∀ (i off : Nat) (pre : List Nat) (s e : Nat), pre.length = off →
      (∀ ch ∈ chunks, all256 ch) →
      seekWalk dek codec (pre ++ (buildBlocks dek codec i off chunks).2) s e
        (buildBlocks dek codec i off chunks).1
        = some ((chunks.flatten.drop s).take (e - s)) := by
  induction chunks with
  | nil =>
    intro i off pre s e hpre hb
    simp [buildBlocks, seekWalk]
  | cons ch rest ih =>
    intro i off pre s e hpre hb
    have hcomp : all256 (codec.compress ch) :=
      fun x hx => codec.bounded ch (hb ch (by simp)) x hx
    have hbrest : ∀ c ∈ rest, all256 c := fun c hc => hb c (List.mem_cons_of_mem _ hc)
    simp only [buildBlocks, seekWalk, List.flatten_cons]
    by_cases hes : e ≤ s
    · rw [if_pos hes]
      have : e - s = 0 := by omega
      simp [this]
    · rw [if_neg hes]
      by_cases hskip : ch.length ≤ s
      · rw [if_pos hskip]
        have hrec : seekWalk dek codec
            (pre ++ (sealB dek (nonceOf dek i) (codec.compress ch) ++
              (buildBlocks dek codec (i + 1) (off + (sealB dek (nonceOf dek i) (codec.compress ch)).length) rest).2))
            (s - ch.length) (e - ch.length)
            (buildBlocks dek codec (i + 1) (off + (sealB dek (nonceOf dek i) (codec.compress ch)).length) rest).1
            = some ((rest.flatten.drop (s - ch.length)).take (e - ch.length - (s - ch.length))) := by
          rw [← List.append_assoc]
          exact ih (i + 1) _ (pre ++ sealB dek (nonceOf dek i) (codec.compress ch))
            (s - ch.length) (e - ch.length) (by simp [hpre]) hbrest
        rw [hrec]
        rw [drop_append_ge ch rest.flatten hskip]
        have : e - ch.length - (s - ch.length) = e - s := by omega
        rw [this]
      · rw [if_neg hskip]
        have hslice : ((pre ++ (sealB dek (nonceOf dek i) (codec.compress ch) ++
            (buildBlocks dek codec (i + 1) (off + (sealB dek (nonceOf dek i) (codec.compress ch)).length) rest).2)).drop off).take
              (sealB dek (nonceOf dek i) (codec.compress ch)).length
            = sealB dek (nonceOf dek i) (codec.compress ch) := by
          rw [List.drop_left' hpre]
          exact List.take_left _ _
        have hrec : seekWalk dek codec
            (pre ++ (sealB dek (nonceOf dek i) (codec.compress ch) ++
              (buildBlocks dek codec (i + 1) (off + (sealB dek (nonceOf dek i) (codec.compress ch)).length) rest).2))
            (s - ch.length) (e - ch.length)
            (buildBlocks dek codec (i + 1) (off + (sealB dek (nonceOf dek i) (codec.compress ch)).length) rest).1
            = some ((rest.flatten.drop (s - ch.length)).take (e - ch.length - (s - ch.length))) := by
          rw [← List.append_assoc]
          exact ih (i + 1) _ (pre ++ sealB dek (nonceOf dek i) (codec.compress ch))
            (s - ch.length) (e - ch.length) (by simp [hpre]) hbrest
        rw [hslice]
        simp only [aeadOpen_sealB dek _ hcomp, hrec, codec.rt, Option.some.injEq]
        have hs0 : s - ch.length = 0 := by omega
        rw [hs0, List.drop_zero, Nat.sub_zero]
        rw [List.drop_append_eq_append_drop, hs0, List.drop_zero]
        rw [List.take_append_eq_append_take, List.length_drop]
        have h2 : e - s - (ch.length - s) = e - ch.length := by omega
        rw [h2]

theorem seekWalk_packBB (P : List Nat) (hP : all256 P) (B : Nat) (hB : 0 < B) (codec : Codec)
    (mode : Mode) (head : Nat) (s e : Nat) :
    seekWalk (packDek P B codec mode head) codec (packBB P B codec mode head).2 s e
      (packBB P B codec mode head).1 = some ((P.drop s).take (e - s)) := by
  have h := seekWalk_buildBlocks (packDek P B codec mode head) codec (chunk B P) 0 0 [] s e rfl
    (fun ch hch x hx => hP x (chunk_subset B P ch hch x hx))
  rw [chunk_flatten hB P] at h
  simpa [packBB] using h

/-- Seek inverts pack: a range request on a packed container returns
exactly the requested slice of the payload, clamped at end of stream. -/
theorem seek_pack {P : List Nat} (hP : all256 P) {B : Nat} {codec : Codec}
    (hlook : lookupCodec codec.name = some codec) {ci : CipherId} {mode : Mode} {head : Nat}
    {pub sk : Option Nat} {f : List Nat}
    (hf : pack P B codec ci mode head pub sk = some f) (off len : Nat) :
    seek f off len pub = .ok ((P.drop off).take (min (off + len) P.length - off)) := by
  obtain ⟨hB, hlen, hfe⟩ := pack_eq hf
  have hname := lookupCodec_name hlook
  have hwf : WFb (packMeta P B codec ci mode head pub sk) = true :=
    WFb_packMeta P B hname ci mode head pub sk
  subst hfe
  have hle : 14 + (S (packMeta P B codec ci mode head pub sk)).length ≤
      (hdr10 ++ (be32 (S (packMeta P B codec ci mode head pub sk)).length ++
        (S (packMeta P B codec ci mode head pub sk) ++ (packBB P B codec mode head).2))).length := by
    rw [cont_length]
    omega
  unfold seek
  rw [cont_take10, if_pos rfl, cont_lenfield, beVal_be32 hlen, if_pos hle, cont_meta,
    parseMetaBytes_S hwf]
  simp only [packMeta_compName, hlook, getDek_pack]
  rw [if_pos (packMeta_modeTag_check P B codec ci mode head pub sk)]
  rw [cont_stream, packMeta_blocks, packMeta_lengthTotal]
  simp only [seekWalk_packBB P hP B (by omega) codec mode head off (min (off + len) P.length)]

/-! ### Tamper detection machinery -/

theorem getElem?_set_lt {l : List Nat} {i : Nat} (h : i < l.length) (a : Nat) :
    (l.set i a)[i]? = some a := by
  simp [List.getElem?_set, h]

theorem set_take_of_le {l : List Nat} {j n : Nat} (h : n ≤ j) (c : Nat) :
    (l.set j c).take n = l.take n := by
  apply List.ext_getElem?
  intro i
  simp only [List.getElem?_take]
  by_cases hi : i < n
  · rw [if_pos hi, if_pos hi, List.getElem?_set_ne (show j ≠ i from by omega)]
  · rw [if_neg hi, if_neg hi]

theorem set_drop_comm {l : List Nat} {j n : Nat} (h : n ≤ j) (c : Nat) :
    (l.set j c).drop n = (l.drop n).set (j - n) c := by
  apply List.ext_getElem?
  intro i
  simp only [List.getElem?_drop, List.getElem?_set, List.length_drop]
  split_ifs <;> first | rfl | omega | (rw [List.getElem?_drop])
  all_goals omega

theorem take_set_comm {l : List Nat} {p n : Nat} (h : p < n) (c : Nat) :
    (l.set p c).take n = (l.take n).set p c := by
  apply List.ext_getElem?
  intro i
  simp only [List.getElem?_take, List.getElem?_set, List.length_take]
  split_ifs <;> first | rfl | omega | (rw [List.getElem?_take]; try omega)
  all_goals (first | omega | (rw [if_pos (by omega)]) | (rw [if_neg (by omega)]))

theorem split_except {a₁ b₁ a₂ b₂ : List Nat} {p : Nat}
    (hlen : a₁.length = a₂.length)
    (hpt : ∀ i : Nat, i ≠ p → (a₁ ++ b₁)[i]? = (a₂ ++ b₂)[i]?) :
    (p < a₁.length → b₁ = b₂) ∧ (a₁.length ≤ p → a₁ = a₂) := by
  constructor
  · intro hp
    apply List.ext_getElem?
    intro q
    have h := hpt (a₁.length + q) (by omega)
    simp only [List.getElem?_append] at h
    rw [if_neg (by omega), if_neg (by omega)] at h
    rw [show a₁.length + q - a₁.length = q from by omega,
      show a₁.length + q - a₂.length = q from by omega] at h
    exact h
  · intro hp
    apply List.ext_getElem?
    intro i
    by_cases hi : i < a₁.length
    · have h := hpt i (by omega)
      simp only [List.getElem?_append] at h
      rw [if_pos hi, if_pos (show i < a₂.length from by omega)] at h
      exact h
    · rw [List.getElem?_eq_none (by omega), List.getElem?_eq_none (by omega)]

theorem parseMetaBytes_inv {b : List Nat} {m : MetaBlock} (h : parseMetaBytes b = some m) :
    WFb m = true ∧ S m = b := by
  unfold parseMetaBytes at h
  cases hp : parseMeta b with
  | none => rw [hp] at h; simp at h
  | some pr =>
    rw [hp] at h
    simp only [Option.some_bind] at h
    by_cases hcond : pr.2 = [] ∧ WFb pr.1 = true ∧ S pr.1 = b
    · rw [if_pos hcond] at h
      have hm : pr.1 = m := by simpa using h
      rw [hm] at hcond
      exact ⟨hcond.2.1, hcond.2.2⟩
    · rw [if_neg hcond] at h
      simp at h

theorem S_decomp_sig {m : MetaBlock} {s : List Nat} (h : m.sig = some s) :
    S m = (core m ++ litSig) ++ (s ++ litEnd) := by
  rw [S, h]
  show core m ++ (litSig ++ s ++ litEnd) = (core m ++ litSig) ++ (s ++ litEnd)
  simp [List.append_assoc]

theorem length_S_sig {m : MetaBlock} {k : Nat}
    (h : m.sig = some (hexB (signBytes k (sigMsg m)))) :
    (S m).length = 3 * (core m).length + 2 * (natB k).length + 23 := by
  rw [S_decomp_sig h]
  simp only [List.length_append, length_hexB, signBytes, sigMsg, List.length_cons]
  have h1 : litSig.length = 15 := rfl
  have h2 : litEnd.length = 2 := rfl
  rw [h1, h2]
  omega

theorem all256_signMsg {m : MetaBlock} (hw : WFb m = true) (k : Nat) :
    all256 (signBytes k (sigMsg m)) := by
  rw [signBytes, sigMsg]
  apply all256_append (all256_natB k)
  apply all256_cons (by omega)
  apply all256_append (all256_core hw)
  unfold all256; decide

/-- A single byte flip cannot carry one correctly self-signed canonical
metadata serialization into another: the signature value embeds the signed
bytes, so any change to the signed fields forces a change inside the
signature region as well, and conversely. -/
theorem wellSigned_flip {k : Nat} {mA mB : MetaBlock} {p c : Nat}
    (hwA : WFb mA = true) (hwB : WFb mB = true)
    (hsA : mA.sig = some (hexB (signBytes k (sigMsg mA))))
    (hsB : mB.sig = some (hexB (signBytes k (sigMsg mB))))
    (hset : S mB = (S mA).set p c)
    (hne : S mB ≠ S mA) : False := by
  have hlenAB : (S mB).length = (S mA).length := by rw [hset, List.length_set]
  have hcore : (core mB).length = (core mA).length := by
    have hA := length_S_sig hsA
    have hB := length_S_sig hsB
    omega
  have hpt : ∀ i : Nat, i ≠ p → (S mB)[i]? = (S mA)[i]? := by
    intro i hi
    rw [hset, List.getElem?_set_ne (fun he => hi he.symm)]
  rw [S_decomp_sig hsA] at hpt hne
  rw [S_decomp_sig hsB] at hpt hne
  have hlenA : (core mB ++ litSig).length = (core mA ++ litSig).length := by
    simp [List.length_append, hcore]
  obtain ⟨hsuf, hpre⟩ := split_except hlenA hpt
  have hsig_of_core : core mB = core mA →
      hexB (signBytes k (sigMsg mB)) = hexB (signBytes k (sigMsg mA)) := by
    intro hc
    rw [sigMsg, sigMsg, hc]
  have hcore_of_sig : hexB (signBytes k (sigMsg mB)) = hexB (signBytes k (sigMsg mA)) →
      core mB = core mA := by
    intro hx
    have hb := hexB_inj (all256_signMsg hwB k) (all256_signMsg hwA k) hx
    obtain ⟨-, hmsg⟩ := signBytes_inj hb
    rw [sigMsg, sigMsg] at hmsg
    exact List.append_cancel_right hmsg
  by_cases hp : p < (core mA ++ litSig).length
  · have hb := hsuf (by omega)
    have hx : hexB (signBytes k (sigMsg mB)) = hexB (signBytes k (sigMsg mA)) :=
      List.append_cancel_right hb
    have hc := hcore_of_sig hx
    exact hne (by rw [hc, hx])
  · have ha := hpre (by omega)
    have hc : core mB = core mA := List.append_cancel_right ha
    have hx := hsig_of_core hc
    exact hne (by rw [hc, hx])

/-- Tampering with any single byte of the metadata region of a signed
container (preserving the length field) makes unpack with the correct
verification key fail: the altered bytes either no longer parse
canonically (FormatError) or fail signature verification
(SignatureError); the reader never reaches the block phase. -/
theorem unpack_tamper {P : List Nat} {B : Nat} {codec : Codec}
    (hlook : lookupCodec codec.name = some codec) {ci : CipherId} {mode : Mode} {head : Nat}
    {pub : Option Nat} {k : Nat} {f : List Nat}
    (hf : pack P B codec ci mode head pub (some k) = some f)
    (priv : Option Nat) (j c : Nat) (hj14 : 14 ≤ j) (hjL : j < 14 + metaLenOf f)
    (hc : f[j]? ≠ some c) :
    ∃ e, unpack (f.set j c) priv (some k) = .error e ∧
      (e = .formatError ∨ e = .signatureError ∨ e = .integrityError) := by
  obtain ⟨hB, hlen, hfe⟩ := pack_eq hf
  have hname := lookupCodec_name hlook
  have hwf₁ : WFb (packMeta P B codec ci mode head pub (some k)) = true :=
    WFb_packMeta P B hname ci mode head pub (some k)
  set M := packMeta P B codec ci mode head pub (some k) with hM
  set st := (packBB P B codec mode head).2 with hst
  subst hfe
  have hmlen : metaLenOf (hdr10 ++ (be32 (S M).length ++ (S M ++ st))) = (S M).length := by
    unfold metaLenOf
    rw [cont_lenfield]
    exact beVal_be32 hlen
  rw [hmlen] at hjL
  have hp_lt : j - 14 < (S M).length := by omega
  have h1 : ((hdr10 ++ (be32 (S M).length ++ (S M ++ st))).set j c).take 10 = hdr10 := by
    rw [set_take_of_le (by omega), cont_take10]
  have h2 : (((hdr10 ++ (be32 (S M).length ++ (S M ++ st))).set j c).drop 10).take 4
      = be32 (S M).length := by
    rw [set_drop_comm (by omega), set_take_of_le (by omega)]
    rw [cont_drop10]
    exact List.take_left' (length_be32 _)
  have h3 : (((hdr10 ++ (be32 (S M).length ++ (S M ++ st))).set j c).drop 14).take (S M).length
      = (S M).set (j - 14) c := by
    rw [set_drop_comm (by omega), cont_drop14, take_set_comm hp_lt]
    rw [List.take_left' rfl]
  have h4 : 14 + (S M).length ≤ ((hdr10 ++ (be32 (S M).length ++ (S M ++ st))).set j c).length := by
    rw [List.length_set, cont_length]
    omega
  have hfj : (hdr10 ++ (be32 (S M).length ++ (S M ++ st)))[j]? = (S M)[j - 14]? := by
    have hj' : j = 14 + (j - 14) := by omega
    rw [hj', ← List.getElem?_drop, cont_drop14]
    simp only [List.getElem?_append]
    rw [if_pos hp_lt]
    congr 1
    omega
  cases hpm : parseMetaBytes ((S M).set (j - 14) c) with
  | none =>
    refine ⟨.formatError, ?_, Or.inl rfl⟩
    unfold unpack
    rw [h1, if_pos rfl, h2, beVal_be32 hlen, if_pos h4, h3, hpm]
  | some m' =>
    obtain ⟨hwf', hcanon⟩ := parseMetaBytes_inv hpm
    have hSne : S m' ≠ S M := by
      intro he
      apply hc
      rw [hfj]
      have hx : ((S M).set (j - 14) c)[j - 14]? = (S M)[j - 14]? := by
        rw [← hcanon, he]
      rw [getElem?_set_lt hp_lt] at hx
      exact hx.symm
    cases hs' : m'.sig with
    | none =>
      refine ⟨.signatureError, ?_, Or.inr (Or.inl rfl)⟩
      unfold unpack
      rw [h1, if_pos rfl, h2, beVal_be32 hlen, if_pos h4, h3, hpm]
      simp [sigGate, hs']
    | some s' =>
      by_cases hver : s' = hexB (signBytes k (sigMsg m'))
      · exfalso
        have hsA : M.sig = some (hexB (signBytes k (sigMsg M))) := by
          rw [hM, sigMsg_packMeta]
          rfl
        have hsB : m'.sig = some (hexB (signBytes k (sigMsg m'))) := by rw [hs', hver]
        exact wellSigned_flip hwf₁ hwf' hsA hsB hcanon hSne
      · refine ⟨.signatureError, ?_, Or.inr (Or.inl rfl)⟩
        unfold unpack
        rw [h1, if_pos rfl, h2, beVal_be32 hlen, if_pos h4, h3, hpm]
        simp [sigGate, hs', hver]

/-- Unpacking a signed container with a verification key different from
the signing key fails with a SignatureError, whatever the private key and
however intact the container. -/
theorem unpack_wrongKey {P : List Nat} {B : Nat} {codec : Codec}
    (hlook : lookupCodec codec.name = some codec) {ci : CipherId} {mode : Mode} {head : Nat}
    {pub : Option Nat} {k : Nat} {f : List Nat}
    (hf : pack P B codec ci mode head pub (some k) = some f)
    (priv : Option Nat) {vk : Nat} (hvk : vk ≠ k) :
    unpack f priv (some vk) = .error .signatureError := by
  obtain ⟨hB, hlen, hfe⟩ := pack_eq hf
  have hname := lookupCodec_name hlook
  have hwf : WFb (packMeta P B codec ci mode head pub (some k)) = true :=
    WFb_packMeta P B hname ci mode head pub (some k)
  have hwf0 : WFb (packMeta0 P B codec ci mode head pub) = true :=
    WFb_packMeta0 P B hname ci mode head pub
  subst hfe
  have hle : 14 + (S (packMeta P B codec ci mode head pub (some k))).length ≤
      (hdr10 ++ (be32 (S (packMeta P B codec ci mode head pub (some k))).length ++
        (S (packMeta P B codec ci mode head pub (some k)) ++ (packBB P B codec mode head).2))).length := by
    rw [cont_length]
    omega
  unfold unpack
  rw [cont_take10, if_pos rfl, cont_lenfield, beVal_be32 hlen, if_pos hle, cont_meta,
    parseMetaBytes_S hwf]
  have hsig : (packMeta P B codec ci mode head pub (some k)).sig
      = some (hexB (signBytes k (S (packMeta0 P B codec ci mode head pub)))) := rfl
  have hver : hexB (signBytes k (S (packMeta0 P B codec ci mode head pub)))
      ≠ hexB (signBytes vk (sigMsg (packMeta P B codec ci mode head pub (some k)))) := by
    rw [sigMsg_packMeta]
    intro heq
    have hbk : all256 (signBytes k (S (packMeta0 P B codec ci mode head pub))) := by
      rw [signBytes]
      exact all256_append (all256_natB k) (all256_cons (by omega) (all256_S hwf0))
    have hbvk : all256 (signBytes vk (S (packMeta0 P B codec ci mode head pub))) := by
      rw [signBytes]
      exact all256_append (all256_natB vk) (all256_cons (by omega) (all256_S hwf0))
    have h1 := hexB_inj hbk hbvk heq
    exact hvk ((signBytes_inj h1).1).symm
  simp [sigGate, hsig, hver]

/-- Decoding just the metadata of a packed container succeeds and returns
the metadata record pack built. -/
theorem extractMeta_pack {P : List Nat} {B : Nat} {codec : Codec}
    (hlook : lookupCodec codec.name = some codec) {ci : CipherId} {mode : Mode} {head : Nat}
    {pub sk : Option Nat} {f : List Nat}
    (hf : pack P B codec ci mode head pub sk = some f) :
    extractMeta f = some (packMeta P B codec ci mode head pub sk) := by
  obtain ⟨hB, hlen, hfe⟩ := pack_eq hf
  have hname := lookupCodec_name hlook
  have hwf : WFb (packMeta P B codec ci mode head pub sk) = true :=
    WFb_packMeta P B hname ci mode head pub sk
  subst hfe
  have hmlen : metaLenOf (hdr10 ++ (be32 (S (packMeta P B codec ci mode head pub sk)).length ++
      (S (packMeta P B codec ci mode head pub sk) ++ (packBB P B codec mode head).2)))
      = (S (packMeta P B codec ci mode head pub sk)).length := by
    unfold metaLenOf
    rw [cont_lenfield]
    exact beVal_be32 hlen
  unfold extractMeta
  rw [hmlen]
  rw [if_pos ⟨cont_take10 _ _ _, by rw [cont_length]; omega⟩, cont_meta, parseMetaBytes_S hwf]

/-- A container whose length field does not match the byte length of the
canonical metadata serialization that follows it is rejected with a
FormatError: a too-short field truncates the serialization (no canonical
serialization is a proper prefix of another, because the parser consumes
a full record and demands end of input), and a too-long field leaves
trailing bytes behind the parse. -/
theorem unpack_badLen {m : MetaBlock} (hwf : WFb m = true) {L : Nat} (hL32 : L < 2 ^ 32)
    (hLne : L ≠ (S m).length) (rest : List Nat) (priv vk : Option Nat) :
    unpack (hdr10 ++ (be32 L ++ (S m ++ rest))) priv vk = .error .formatError := by
  unfold unpack
  rw [cont_take10, if_pos rfl, cont_lenfield, beVal_be32 hL32]
  by_cases hle : 14 + L ≤ (hdr10 ++ (be32 L ++ (S m ++ rest))).length
  · rw [if_pos hle, cont_drop14]
    have hlen2 : (hdr10 ++ (be32 L ++ (S m ++ rest))).length
        = 14 + (S m).length + rest.length := cont_length L (S m) rest
    have hnone : parseMetaBytes ((S m ++ rest).take L) = none := by
      cases hpm : parseMetaBytes ((S m ++ rest).take L) with
      | none => rfl
      | some m' =>
        exfalso
        obtain ⟨hwf', hcanon⟩ := parseMetaBytes_inv hpm
        by_cases hcase : L < (S m).length
        · have htake : (S m ++ rest).take L = (S m).take L := by
            rw [List.take_append_eq_append_take, show L - (S m).length = 0 from by omega]
            simp
          have htakeL : (S m).take L = S m' := by rw [← htake, ← hcanon]
          have hSm : S m = S m' ++ (S m).drop L := by
            rw [← htakeL, List.take_append_drop]
          have hp1 : parseMeta (S m) = some (m, []) := by simpa using parseMeta_rt m hwf []
          have hp2 : parseMeta (S m) = some (m', (S m).drop L) := by
            conv_lhs => rw [hSm]
            exact parseMeta_rt m' hwf' _
          rw [hp1] at hp2
          have hpair := Option.some.inj hp2
          have hdp : ([] : List Nat) = (S m).drop L := congrArg Prod.snd hpair
          have hlen0 := congrArg List.length hdp.symm
          rw [List.length_drop] at hlen0
          simp at hlen0
          omega
        · have htake : (S m ++ rest).take L = S m ++ rest.take (L - (S m).length) := by
            rw [List.take_append_eq_append_take, List.take_of_length_le (by omega)]
          have hextne : rest.take (L - (S m).length) ≠ [] := by
            intro h0
            have hlen0 : (rest.take (L - (S m).length)).length = 0 := by rw [h0]; rfl
            rw [List.length_take] at hlen0
            omega
          have hp1 : parseMeta ((S m ++ rest).take L)
              = some (m, rest.take (L - (S m).length)) := by
            rw [htake]
            exact parseMeta_rt m hwf _
          have hp2 : parseMeta ((S m ++ rest).take L) = some (m', []) := by
            rw [← hcanon]
            simpa using parseMeta_rt m' hwf' []
          rw [hp1] at hp2
          have hpair := Option.some.inj hp2
          exact hextne (congrArg Prod.snd hpair)
    rw [hnone]
  · rw [if_neg hle]

theorem buildBlocks_length (dek : Nat) (codec : Codec) :
    ∀ (chunks : List (List Nat)) (i off : Nat),
      ((buildBlocks dek codec i off chunks).1).length = chunks.length := by
  intro chunks
  induction chunks with
  | nil => intro i off; rfl
  | cons ch rest ih =>
    intro i off
    simp only [buildBlocks, List.length_cons, ih]

/-! ### The metadata bytes as a JSON object with sorted keys -/

/-- Render one JSON key-value pair (the value bytes carry their own
quoting when the value is a string). -/
def renderPair (kv : List Nat × List Nat) : List Nat := 34 :: (kv.1 ++ 34 :: 58 :: kv.2)

/-- Render a comma-separated pair list. -/
def renderPairs : List (List Nat × List Nat) → List Nat
  | [] => []
  | [kv] => renderPair kv
  | kv :: rest => renderPair kv ++ 44 :: renderPairs rest

/-- Render a JSON object from its pair list. -/
def renderObj (ps : List (List Nat × List Nat)) : List Nat := 123 :: (renderPairs ps ++ [125])

/-- Strict lexicographic order on byte strings. -/
def lexLtB : List Nat → List Nat → Bool
  | [], [] => false
  | [], _ :: _ => true
  | _ :: _, [] => false
  | x :: xs, y :: ys => if x < y then true else if x = y then lexLtB xs ys else false

/-- All adjacent keys strictly increase lexicographically. -/
def sortedKeysB : List (List Nat) → Bool
  | [] => true
  | [_] => true
  | a :: b :: r => lexLtB a b && sortedKeysB (b :: r)

def keyBlockSize : List Nat := [98, 108, 111, 99, 107, 95, 115, 105, 122, 101]
def keyBlocks : List Nat := [98, 108, 111, 99, 107, 115]
def keyCipher : List Nat := [99, 105, 112, 104, 101, 114]
def keyCompression : List Nat := [99, 111, 109, 112, 114, 101, 115, 115, 105, 111, 110]
def keyDek : List Nat := [100, 101, 107]
def keyHeadBytes : List Nat := [104, 101, 97, 100, 95, 98, 121, 116, 101, 115]
def keyKeyEnvelope : List Nat := [107, 101, 121, 95, 101, 110, 118, 101, 108, 111, 112, 101]
def keyLength : List Nat := [108, 101, 110, 103, 116, 104]
def keyMode : List Nat := [109, 111, 100, 101]
def keyModeTag : List Nat := [109, 111, 100, 101, 95, 116, 97, 103]
def keySignature : List Nat := [115, 105, 103, 110, 97, 116, 117, 114, 101]

/-- Cipher id wire name. -/
def cipherNameB : CipherId → List Nat
  | .aes256gcm => [97, 101, 115, 50, 53, 54, 45, 103, 99, 109]

/-- The key-value pair list of a metadata record, in serialization order. -/
def pairsOf (m : MetaBlock) : List (List Nat × List Nat) :=
  [(keyBlockSize, natB m.blockSize),
   (keyBlocks, 91 :: (quadsTail m.blocks ++ [93])),
   (keyCipher, 34 :: (cipherNameB m.cipher ++ [34])),
   (keyCompression, 34 :: (m.compName ++ [34]))]
  ++ (match m.dekH with | none => [] | some d => [(keyDek, 34 :: (d ++ [34]))])
  ++ [(keyHeadBytes, natB m.headBytes)]
  ++ (match m.keyEnv with | none => [] | some e => [(keyKeyEnvelope, 34 :: (e ++ [34]))])
  ++ [(keyLength, natB m.lengthTotal),
      (keyMode, 34 :: (modeB m.mode ++ [34])),
      (keyModeTag, 34 :: (m.modeTag ++ [34]))]
  ++ (match m.sig with | none => [] | some s => [(keySignature, 34 :: (s ++ [34]))])

set_option maxRecDepth 4000 in
/-- The canonical metadata serialization is exactly the JSON object over
its pair list. -/
theorem S_renderObj (m : MetaBlock) : S m = renderObj (pairsOf m) := by
  rcases m with ⟨bs, qs, ci, nm, dk, hb, env, tot, md, tag, sg⟩
  cases ci
  cases dk <;> cases env <;> cases sg <;>
    simp [S, core, pairsOf, renderObj, renderPairs, renderPair, sigPart, dekPart, envLenPart,
      cipherCompB, cipherNameB, litHdrBS, litBlocks, litCipherComp, litDek, litHeadBytes,
      litKeyEnv, litLen, litLenAfterHex, litMode, litModeTag, litSig, litEnd, keyBlockSize,
      keyBlocks, keyCipher, keyCompression, keyDek, keyHeadBytes, keyKeyEnvelope, keyLength,
      keyMode, keyModeTag, keySignature, List.append_assoc]

/-- The keys of any metadata record appear in strictly increasing
lexicographic order. -/
theorem sortedKeys_pairsOf (m : MetaBlock) : sortedKeysB ((pairsOf m).map Prod.fst) = true := by
  rcases m with ⟨bs, qs, ci, nm, dk, hb, env, tot, md, tag, sg⟩
  cases dk <;> cases env <;> cases sg <;> (simp [pairsOf]; decide)

/-- The serialized metadata contains the literal bytes of `"mode_tag":"`
immediately followed by the stored tag value. -/
theorem S_modeTag_decomp (m : MetaBlock) :
    ∃ pre, S m = pre ++ ([34, 109, 111, 100, 101, 95, 116, 97, 103, 34, 58, 34] ++
      (m.modeTag ++ sigPart m.sig)) := by
  refine ⟨litHdrBS ++ natB m.blockSize ++ litBlocks ++ quadsTail m.blocks ++ 93 ::
    (cipherCompB m.cipher ++ m.compName ++ dekPart m.dekH ++ litHeadBytes ++ natB m.headBytes ++
     envLenPart m.keyEnv ++ natB m.lengthTotal ++ litMode ++ modeB m.mode ++ [34, 44]), ?_⟩
  simp [S, core, litModeTag, List.append_assoc]

/-- Metadata byte region of a container file. -/
def metaBytesOf (f : List Nat) : List Nat := (f.drop 14).take (metaLenOf f)

/-- Ciphertext block stream region of a container file. -/
def blockStreamOf (f : List Nat) : List Nat := f.drop (14 + metaLenOf f)

theorem metaBytesOf_pack {P : List Nat} {B : Nat} {codec : Codec} {ci : CipherId} {mode : Mode}
    {head : Nat} {pub sk : Option Nat} {f : List Nat}
    (hf : pack P B codec ci mode head pub sk = some f) :
    metaBytesOf f = S (packMeta P B codec ci mode head pub sk) := by
  obtain ⟨hB, hlen, hfe⟩ := pack_eq hf
  subst hfe
  unfold metaBytesOf metaLenOf
  rw [cont_lenfield, beVal_be32 hlen, cont_meta]

theorem blockStreamOf_pack {P : List Nat} {B : Nat} {codec : Codec} {ci : CipherId} {mode : Mode}
    {head : Nat} {pub sk : Option Nat} {f : List Nat}
    (hf : pack P B codec ci mode head pub sk = some f) :
    blockStreamOf f = (packBB P B codec mode head).2 := by
  obtain ⟨hB, hlen, hfe⟩ := pack_eq hf
  subst hfe
  unfold blockStreamOf metaLenOf
  rw [cont_lenfield, beVal_be32 hlen, cont_stream]

theorem packMeta_modeTag (P : List Nat) (B : Nat) (codec : Codec) (ci : CipherId) (mode : Mode)
    (head : Nat) (pub sk : Option Nat) :
    (packMeta P B codec ci mode head pub sk).modeTag
      = modeTagOf mode head (packDek P B codec mode head) := by
  cases sk <;> rfl

theorem packMeta_dekH_sym (P : List Nat) (B : Nat) (codec : Codec) (ci : CipherId) (mode : Mode)
    (head : Nat) (sk : Option Nat) :
    (packMeta P B codec ci mode head none sk).dekH
      = some (hexFix 64 (packDek P B codec mode head)) := by
  cases sk <;> rfl

theorem packMeta_headBytes (P : List Nat) (B : Nat) (codec : Codec) (ci : CipherId) (mode : Mode)
    (head : Nat) (pub sk : Option Nat) :
    (packMeta P B codec ci mode head pub sk).headBytes = head := by
  cases sk <;> rfl

/-! ### The claims -/

set_option maxRecDepth 100000

set_option maxHeartbeats 4000000

/-- Claim C1: round trip.  For every byte payload, every block size with
which pack succeeds (pack rejects block size 0), every registered
compression codec and every cipher id, both derivation modes with any
head-byte count, and independently with or without an asymmetric key
envelope and with or without a signature, unpacking the packed container
with the matching private key and the signer's key as verification key
returns exactly the original payload. -/
theorem claim_C1_roundtrip (P : List Nat) (hP : all256 P) (B : Nat) (codec : Codec)
    (hlook : lookupCodec codec.name = some codec) (ci : CipherId) (mode : Mode) (head : Nat)
    (pub sk : Option Nat) (f : List Nat)
    (hf : pack P B codec ci mode head pub sk = some f) :
    unpack f pub sk = .ok P :=
  unpack_pack hP hlook hf

theorem claim_C1_witness :
    all256 [10, 20, 30, 40, 50] ∧
      unpack ((pack [10, 20, 30, 40, 50] 2 lz4Model .aes256gcm .two_pass 0 (some 5) (some 9)).getD [])
        (some 5) (some 9) = .ok [10, 20, 30, 40, 50] :=
  ⟨by unfold all256; decide,
    claim_C1_roundtrip [10, 20, 30, 40, 50] (by unfold all256; decide) 2 lz4Model rfl
      .aes256gcm .two_pass 0 (some 5) (some 9) _ rfl⟩

/-- Claim C2: seek correctness.  For every packed container and every
offset within the payload and any requested length, seek returns exactly
the payload slice from the offset to `min (offset + length) (payload
length)` — covering zero-length requests, requests clamped at end of
stream, and requests spanning several blocks. -/
theorem claim_C2_seek (P : List Nat) (hP : all256 P) (B : Nat) (codec : Codec)
    (hlook : lookupCodec codec.name = some codec) (ci : CipherId) (mode : Mode) (head : Nat)
    (pub sk : Option Nat) (f : List Nat)
    (hf : pack P B codec ci mode head pub sk = some f)
    (off len : Nat) (hoff : off ≤ P.length) :
    seek f off len pub = .ok ((P.drop off).take (min (off + len) P.length - off)) :=
  seek_pack hP hlook hf off len

theorem claim_C2_witness :
    (1 : Nat) ≤ 5 ∧
      seek ((pack [10, 20, 30, 40, 50] 2 lz4Model .aes256gcm .two_pass 0 none none).getD [])
        1 3 none = .ok (([10, 20, 30, 40, 50].drop 1).take
          (min (1 + 3) ([10, 20, 30, 40, 50] : List Nat).length - 1)) :=
  ⟨by decide,
    claim_C2_seek [10, 20, 30, 40, 50] (by unfold all256; decide) 2 lz4Model rfl
      .aes256gcm .two_pass 0 none none _ rfl 1 3 (by decide)⟩

/-- Claim C3 (counterexample): the claim says any single-byte modification
inside the signed metadata region fails with a SignatureError or an
IntegrityError.  Flipping the opening brace of the metadata region of a
concrete signed container (the length field is untouched) makes the
metadata unparseable, so unpack with the correct keys fails with a
FormatError instead — a failure class the claim does not admit. -/
theorem claim_C3_counterexample :
    unpack (((pack [1, 2, 3] 2 lz4Model .aes256gcm .two_pass 0 (some 5) (some 9)).getD []).set 14 88)
      (some 5) (some 9) = .error .formatError ∧
    Err.formatError ≠ Err.signatureError ∧ Err.formatError ≠ Err.integrityError :=
  ⟨rfl, by decide, by decide⟩

/-- Claim C3 (amended): for every signed container produced by pack and
every single-byte modification inside the metadata region that preserves
the metadata length field, unpack with the correct verification key fails
with a FormatError, SignatureError or IntegrityError; it never succeeds
and never produces output. -/
theorem claim_C3_amended (P : List Nat) (B : Nat) (codec : Codec)
    (hlook : lookupCodec codec.name = some codec) (ci : CipherId) (mode : Mode) (head : Nat)
    (pub : Option Nat) (k : Nat) (f : List Nat)
    (hf : pack P B codec ci mode head pub (some k) = some f)
    (priv : Option Nat) (j c : Nat) (hj14 : 14 ≤ j) (hjL : j < 14 + metaLenOf f)
    (hc : f[j]? ≠ some c) :
    ∃ e, unpack (f.set j c) priv (some k) = .error e ∧
      (e = .formatError ∨ e = .signatureError ∨ e = .integrityError) :=
  unpack_tamper hlook hf priv j c hj14 hjL hc

theorem claim_C3_witness :
    (14 : Nat) ≤ 14 ∧
      ∃ e, unpack ((((pack [1, 2, 3] 2 lz4Model .aes256gcm .two_pass 0 (some 5) (some 9)).getD []).set 14 88))
        none (some 9) = .error e ∧
        (e = .formatError ∨ e = .signatureError ∨ e = .integrityError) :=
  ⟨by decide,
    claim_C3_amended [1, 2, 3] 2 lz4Model rfl .aes256gcm .two_pass 0 (some 5) 9 _ rfl
      none 14 88 (by decide) (by decide) (by decide)⟩

/-- Claim C4: wrong-key rejection.  Unpacking a container signed with some
key, using a verification key that does not correspond to that signing
key, always fails (with a SignatureError), whatever private key is
supplied and although payload, envelope and block ciphertexts are intact. -/
theorem claim_C4_wrongKey (P : List Nat) (B : Nat) (codec : Codec)
    (hlook : lookupCodec codec.name = some codec) (ci : CipherId) (mode : Mode) (head : Nat)
    (pub : Option Nat) (k : Nat) (f : List Nat)
    (hf : pack P B codec ci mode head pub (some k) = some f)
    (priv : Option Nat) (vk : Nat) (hvk : vk ≠ k) :
    unpack f priv (some vk) = .error .signatureError :=
  unpack_wrongKey hlook hf priv hvk

theorem claim_C4_witness :
    (7 : Nat) ≠ 9 ∧
      unpack ((pack [1, 2, 3] 2 lz4Model .aes256gcm .two_pass 0 (some 5) (some 9)).getD [])
        (some 5) (some 7) = .error .signatureError :=
  ⟨by decide,
    claim_C4_wrongKey [1, 2, 3] 2 lz4Model rfl .aes256gcm .two_pass 0 (some 5) 9 _ rfl
      (some 5) 7 (by decide)⟩

/-- Claim C5: header layout and length-field validation.  Every container
pack produces is the fixed 10-byte header (magic, version, reserved)
followed by a 4-byte big-endian length equal to the exact byte length of
the metadata block that follows; and decoding a file whose length field
does not match the length of the canonical metadata block that starts at
offset 14 fails with a FormatError. -/
theorem claim_C5_header :
    (∀ (P : List Nat) (B : Nat) (codec : Codec), lookupCodec codec.name = some codec →
      ∀ (ci : CipherId) (mode : Mode) (head : Nat) (pub sk : Option Nat) (f : List Nat),
        pack P B codec ci mode head pub sk = some f →
        ∃ mb rest m, f = hdr10 ++ (be32 mb.length ++ (mb ++ rest)) ∧ mb.length < 2 ^ 32 ∧
          parseMetaBytes mb = some m) ∧
    (∀ m : MetaBlock, WFb m = true → ∀ L : Nat, L < 2 ^ 32 → L ≠ (S m).length →
      ∀ (rest : List Nat) (priv vk : Option Nat),
        unpack (hdr10 ++ (be32 L ++ (S m ++ rest))) priv vk = .error .formatError) := by
  constructor
  · intro P B codec hlook ci mode head pub sk f hf
    obtain ⟨hB, hlen, hfe⟩ := pack_eq hf
    exact ⟨S (packMeta P B codec ci mode head pub sk), (packBB P B codec mode head).2,
      packMeta P B codec ci mode head pub sk, hfe, hlen,
      parseMetaBytes_S (WFb_packMeta P B (lookupCodec_name hlook) ci mode head pub sk)⟩
  · intro m hwf L hL32 hLne rest priv vk
    exact unpack_badLen hwf hL32 hLne rest priv vk

theorem claim_C5_witness :
    (∃ mb rest m, (pack [1, 2, 3] 2 lz4Model .aes256gcm .two_pass 0 none none).getD []
        = hdr10 ++ (be32 mb.length ++ (mb ++ rest)) ∧ mb.length < 2 ^ 32 ∧
        parseMetaBytes mb = some m) ∧
    unpack (hdr10 ++
        (be32 ((S (packMeta [1, 2] 2 lz4Model .aes256gcm .two_pass 0 none none)).length + 1) ++
          (S (packMeta [1, 2] 2 lz4Model .aes256gcm .two_pass 0 none none) ++ [])))
      none none = .error .formatError :=
  ⟨claim_C5_header.1 [1, 2, 3] 2 lz4Model rfl .aes256gcm .two_pass 0 none none _ rfl,
   claim_C5_header.2 (packMeta [1, 2] 2 lz4Model .aes256gcm .two_pass 0 none none) (by decide)
     ((S (packMeta [1, 2] 2 lz4Model .aes256gcm .two_pass 0 none none)).length + 1)
     (by decide) (by decide) [] none none⟩

/-- Claim C6: determinism.  Packing is a function of its inputs, so two
independent packs of identical input with identical parameters in
symmetric mode produce the identical container (hence identical DEKs and
identical nonces, the per-block nonce being derived from the base key and
the block index only); the stored DEK and the stored `mode_tag` are
re-derived from the stored compressed bytes with the chosen mode and
parameters, with no random component; and the ciphertext stream is the
deterministic block encryption under that derived key. -/
theorem claim_C6_determinism (P : List Nat) (B : Nat) (codec : Codec)
    (hlook : lookupCodec codec.name = some codec) (ci : CipherId) (mode : Mode) (head : Nat)
    (f : List Nat) (hf : pack P B codec ci mode head none none = some f) :
    (∀ f₂ : List Nat, pack P B codec ci mode head none none = some f₂ → f₂ = f) ∧
    (∃ m, extractMeta f = some m ∧
      m.dekH = some (hexFix 64 (derive mode head ((chunk B P).map codec.compress).flatten)) ∧
      m.modeTag = modeTagOf mode head (derive mode head ((chunk B P).map codec.compress).flatten)) ∧
    blockStreamOf f
      = (buildBlocks (derive mode head ((chunk B P).map codec.compress).flatten)
          codec 0 0 (chunk B P)).2 := by
  refine ⟨?_, ⟨packMeta P B codec ci mode head none none, extractMeta_pack hlook hf, ?_, ?_⟩, ?_⟩
  · intro f₂ h₂
    rw [hf] at h₂
    exact (Option.some.inj h₂).symm
  · exact packMeta_dekH_sym P B codec ci mode head none
  · exact packMeta_modeTag P B codec ci mode head none none
  · exact blockStreamOf_pack hf

theorem claim_C6_witness :
    (∃ m, extractMeta ((pack [1, 2, 3] 2 lz4Model .aes256gcm .two_pass 0 none none).getD [])
        = some m ∧
      m.dekH = some (hexFix 64
        (derive .two_pass 0 ((chunk 2 [1, 2, 3]).map lz4Model.compress).flatten)) ∧
      m.modeTag = modeTagOf .two_pass 0
        (derive .two_pass 0 ((chunk 2 [1, 2, 3]).map lz4Model.compress).flatten)) ∧
    blockStreamOf ((pack [1, 2, 3] 2 lz4Model .aes256gcm .two_pass 0 none none).getD [])
      = (buildBlocks (derive .two_pass 0 ((chunk 2 [1, 2, 3]).map lz4Model.compress).flatten)
          lz4Model 0 0 (chunk 2 [1, 2, 3])).2 :=
  (claim_C6_determinism [1, 2, 3] 2 lz4Model rfl .aes256gcm .two_pass 0 _ rfl).2

/-- Claim C7: boundary behaviour.  Packing with block size exactly the
payload length yields a block table with exactly one block, and a seek at
offset equal to the total plaintext length returns the empty byte string
rather than an error. -/
theorem claim_C7_boundary :
    (∀ (P : List Nat) (codec : Codec), lookupCodec codec.name = some codec →
      ∀ (ci : CipherId) (mode : Mode) (head : Nat) (pub sk : Option Nat) (f : List Nat),
        pack P P.length codec ci mode head pub sk = some f →
        ∃ m, extractMeta f = some m ∧ m.blocks.length = 1) ∧
    (∀ P : List Nat, all256 P → ∀ (B : Nat) (codec : Codec), lookupCodec codec.name = some codec →
      ∀ (ci : CipherId) (mode : Mode) (head : Nat) (pub sk : Option Nat) (f : List Nat),
        pack P B codec ci mode head pub sk = some f →
        ∀ len : Nat, seek f P.length len pub = .ok []) := by
  constructor
  · intro P codec hlook ci mode head pub sk f hf
    obtain ⟨hB, -, -⟩ := pack_eq hf
    have hne : P ≠ [] := by intro h; exact hB (by simp [h])
    refine ⟨packMeta P P.length codec ci mode head pub sk, extractMeta_pack hlook hf, ?_⟩
    rw [packMeta_blocks]
    unfold packBB
    rw [buildBlocks_length, chunk_self hne]
    rfl
  · intro P hP B codec hlook ci mode head pub sk f hf len
    have h := seek_pack hP hlook hf P.length len
    simpa using h

theorem claim_C7_witness :
    (∃ m, extractMeta ((pack [1, 2, 3] 3 lz4Model .aes256gcm .two_pass 0 none none).getD [])
        = some m ∧ m.blocks.length = 1) ∧
    seek ((pack [1, 2, 3] 2 lz4Model .aes256gcm .two_pass 0 none none).getD []) 3 5 none
      = .ok [] :=
  ⟨claim_C7_boundary.1 [1, 2, 3] lz4Model rfl .aes256gcm .two_pass 0 none none _ rfl,
   claim_C7_boundary.2 [1, 2, 3] (by unfold all256; decide) 2 lz4Model rfl .aes256gcm .two_pass 0
     none none _ rfl 5⟩

/-- Claim C8: default derivation mode.  Packing through the default entry
point — no explicit derivation-mode flag — produces a container whose
stored mode is `two_pass`; and the stored mode always equals the requested
mode, so a `single_pass_firstN` container arises only from passing that
mode (with its head-byte count) explicitly. -/
theorem claim_C8_defaultMode :
    (∀ (P : List Nat) (B : Nat) (codec : Codec), lookupCodec codec.name = some codec →
      ∀ (ci : CipherId) (pub sk : Option Nat) (f : List Nat),
        packDefault P B codec ci pub sk = some f →
        ∃ m, extractMeta f = some m ∧ m.mode = Mode.two_pass) ∧
    (∀ (P : List Nat) (B : Nat) (codec : Codec), lookupCodec codec.name = some codec →
      ∀ (ci : CipherId) (mode : Mode) (head : Nat) (pub sk : Option Nat) (f : List Nat),
        pack P B codec ci mode head pub sk = some f →
        ∃ m, extractMeta f = some m ∧ m.mode = mode) := by
  constructor
  · intro P B codec hlook ci pub sk f hf
    exact ⟨packMeta P B codec ci Mode.two_pass 0 pub sk, extractMeta_pack hlook hf,
      packMeta_mode P B codec ci Mode.two_pass 0 pub sk⟩
  · intro P B codec hlook ci mode head pub sk f hf
    exact ⟨packMeta P B codec ci mode head pub sk, extractMeta_pack hlook hf,
      packMeta_mode P B codec ci mode head pub sk⟩

theorem claim_C8_witness :
    (∃ m, extractMeta ((packDefault [1, 2, 3] 2 lz4Model .aes256gcm none none).getD [])
        = some m ∧ m.mode = Mode.two_pass) ∧
    (∃ m, extractMeta
        ((pack [1, 2, 3] 2 lz4Model .aes256gcm .single_pass_firstN 1 none none).getD [])
        = some m ∧ m.mode = Mode.single_pass_firstN) :=
  ⟨claim_C8_defaultMode.1 [1, 2, 3] 2 lz4Model rfl .aes256gcm none none _ rfl,
   claim_C8_defaultMode.2 [1, 2, 3] 2 lz4Model rfl .aes256gcm .single_pass_firstN 1 none none
     _ rfl⟩

/-- Claim C9: metadata shape.  For every pack invocation the metadata
block is the canonical rendering of a JSON object whose keys are strictly
lexicographically sorted, and it contains the literal bytes of
`"mode_tag":"` immediately followed by the stored tag value, which is
exactly 64 hexadecimal characters — for every choice of mode, compression,
cipher, envelope and signing options. -/
theorem claim_C9_metadata (P : List Nat) (B : Nat) (codec : Codec)
    (hlook : lookupCodec codec.name = some codec) (ci : CipherId) (mode : Mode) (head : Nat)
    (pub sk : Option Nat) (f : List Nat)
    (hf : pack P B codec ci mode head pub sk = some f) :
    (∃ ps, metaBytesOf f = renderObj ps ∧ sortedKeysB (ps.map Prod.fst) = true) ∧
    (∃ pre tagv post, metaBytesOf f
        = pre ++ ([34, 109, 111, 100, 101, 95, 116, 97, 103, 34, 58, 34] ++ (tagv ++ post)) ∧
      tagv.length = 64 ∧ ∀ c ∈ tagv, isHexB c = true) := by
  have hmb := metaBytesOf_pack hf
  constructor
  · exact ⟨pairsOf (packMeta P B codec ci mode head pub sk),
      by rw [hmb]; exact S_renderObj _, sortedKeys_pairsOf _⟩
  · obtain ⟨pre, hpre⟩ := S_modeTag_decomp (packMeta P B codec ci mode head pub sk)
    refine ⟨pre, (packMeta P B codec ci mode head pub sk).modeTag,
      sigPart (packMeta P B codec ci mode head pub sk).sig, by rw [hmb]; exact hpre, ?_, ?_⟩
    · rw [packMeta_modeTag]
      exact length_hexFix 64 _
    · rw [packMeta_modeTag]
      exact hexFix_hex 64 _

theorem claim_C9_witness :
    (∃ ps, metaBytesOf
        ((pack [1, 2, 3] 2 lz4Model .aes256gcm .two_pass 0 (some 5) (some 9)).getD [])
        = renderObj ps ∧ sortedKeysB (ps.map Prod.fst) = true) ∧
    (∃ pre tagv post, metaBytesOf
        ((pack [1, 2, 3] 2 lz4Model .aes256gcm .two_pass 0 (some 5) (some 9)).getD [])
        = pre ++ ([34, 109, 111, 100, 101, 95, 116, 97, 103, 34, 58, 34] ++ (tagv ++ post)) ∧
      tagv.length = 64 ∧ ∀ c ∈ tagv, isHexB c = true) :=
  claim_C9_metadata [1, 2, 3] 2 lz4Model rfl .aes256gcm .two_pass 0 (some 5) (some 9) _ rfl

/-- Claim C10: key-free reads.  A container packed in symmetric mode (no
recipient public key, no signing key) unpacks and seeks with no key
material supplied at all; a container packed with a recipient public key
but no signing key unpacks and seeks given only the matching private key,
with no verification key. -/
theorem claim_C10_keyless :
    (∀ P : List Nat, all256 P → ∀ (B : Nat) (codec : Codec), lookupCodec codec.name = some codec →
      ∀ (ci : CipherId) (mode : Mode) (head : Nat) (f : List Nat),
        pack P B codec ci mode head none none = some f →
        unpack f none none = .ok P ∧
          ∀ off len : Nat, seek f off len none
            = .ok ((P.drop off).take (min (off + len) P.length - off))) ∧
    (∀ P : List Nat, all256 P → ∀ (B : Nat) (codec : Codec), lookupCodec codec.name = some codec →
      ∀ (ci : CipherId) (mode : Mode) (head : Nat) (p : Nat) (f : List Nat),
        pack P B codec ci mode head (some p) none = some f →
        unpack f (some p) none = .ok P ∧
          ∀ off len : Nat, seek f off len (some p)
            = .ok ((P.drop off).take (min (off + len) P.length - off))) := by
  constructor
  · intro P hP B codec hlook ci mode head f hf
    exact ⟨unpack_pack hP hlook hf, fun off len => seek_pack hP hlook hf off len⟩
  · intro P hP B codec hlook ci mode head p f hf
    exact ⟨unpack_pack hP hlook hf, fun off len => seek_pack hP hlook hf off len⟩

theorem claim_C10_witness :
    (unpack ((pack [1, 2, 3] 2 lz4Model .aes256gcm .two_pass 0 none none).getD []) none none
        = .ok [1, 2, 3] ∧
      seek ((pack [1, 2, 3] 2 lz4Model .aes256gcm .two_pass 0 none none).getD []) 1 1 none
        = .ok (([1, 2, 3].drop 1).take (min (1 + 1) ([1, 2, 3] : List Nat).length - 1))) ∧
    (unpack ((pack [1, 2, 3] 2 lz4Model .aes256gcm .two_pass 0 (some 5) none).getD [])
        (some 5) none = .ok [1, 2, 3] ∧
      seek ((pack [1, 2, 3] 2 lz4Model .aes256gcm .two_pass 0 (some 5) none).getD []) 1 1 (some 5)
        = .ok (([1, 2, 3].drop 1).take (min (1 + 1) ([1, 2, 3] : List Nat).length - 1))) :=
  ⟨⟨(claim_C10_keyless.1 [1, 2, 3] (by unfold all256; decide) 2 lz4Model rfl .aes256gcm .two_pass 0
      _ rfl).1,
    (claim_C10_keyless.1 [1, 2, 3] (by unfold all256; decide) 2 lz4Model rfl .aes256gcm .two_pass 0
      _ rfl).2 1 1⟩,
   ⟨(claim_C10_keyless.2 [1, 2, 3] (by unfold all256; decide) 2 lz4Model rfl .aes256gcm .two_pass 0
      5 _ rfl).1,
    (claim_C10_keyless.2 [1, 2, 3] (by unfold all256; decide) 2 lz4Model rfl .aes256gcm .two_pass 0
      5 _ rfl).2 1 1⟩⟩

end Qeltrix
